import Mathlib

/-!
Verification of the `http-parse` crate core (parser.rs / types.rs) against its
natural-language specification.

The embedding models the byte stream that `HttpParser` consumes as a flat
`List Nat` of byte values (the parser is bound to an in-memory `ByteBuffer`
style source: all bytes are available up front, which is the setting of every
claim).  Rust `String` values produced through `String::from_utf8_lossy` are
kept as their underlying byte lists; this is exact for ASCII data, and all
universally quantified theorems below restrict header / token bytes to ASCII,
where lossy UTF-8 decoding is the identity.

Fallible Rust paths are modelled with an explicit result type `PResult`:
`.err` stands for any `Err(std::io::Error)` return, and `.panic` stands for a
Rust abort (out-of-bounds slicing / usize underflow), which `parse_headers_two`
can actually hit (see claim C10).
-/

namespace HttpParse

/-- A byte string: list of byte values (each conceptually `< 256`). -/
abbrev Bytes := List Nat

/-- ASCII bytes of a Lean string literal (used only for ASCII literals). -/
def strBytes (s : String) : Bytes := s.data.map Char.toNat

/-- `u8::is_ascii_whitespace` (used by `trim_ascii`): space, \t, \n, \x0C, \r. -/
def isAsciiWs (b : Nat) : Bool := b == 32 || b == 9 || b == 10 || b == 12 || b == 13

/-- `char::is_whitespace` on a byte cast to `char` (used by `skip_matching` and
`str::trim`): the ASCII whitespace set plus VT, NEL and NBSP code points. -/
def isCharWs (b : Nat) : Bool :=
  b == 32 || b == 9 || b == 10 || b == 11 || b == 12 || b == 13 || b == 133 || b == 160

/-- `[u8]::trim_ascii`. -/
def trimAscii (l : Bytes) : Bytes :=
  ((l.dropWhile isAsciiWs).reverse.dropWhile isAsciiWs).reverse

/-- `str::trim` on a byte-list-modelled string. -/
def trimStr (l : Bytes) : Bytes :=
  ((l.dropWhile isCharWs).reverse.dropWhile isCharWs).reverse

/-- ASCII lower-casing of one byte (`str::to_lowercase` restricted to ASCII). -/
def lowerByte (b : Nat) : Nat := if 65 ≤ b ∧ b ≤ 90 then b + 32 else b

/-- `str::to_lowercase` on a byte-list-modelled string. -/
def lowerBytes (l : Bytes) : Bytes := l.map lowerByte

/-- `BufRead::read_until(delim)`: consumed bytes (delimiter included when found,
everything to end-of-input otherwise) paired with the unread remainder. -/
def read_until (d : Nat) : Bytes → Bytes × Bytes
  | [] => ([], [])
  | c :: cs =>
    if c == d then ([c], cs)
    else
      let p := read_until d cs
      (c :: p.1, p.2)

/-- `Read::read_exact(n)`: `n` bytes and the remainder, or `none` (I/O error)
when the source ends early. -/
def read_exact (n : Nat) (s : Bytes) : Option (Bytes × Bytes) :=
  if n ≤ s.length then some (s.take n, s.drop n) else none

/-- `HttpParser::is_line_end`: end of input, or the next two bytes are CRLF. -/
def is_line_end (s : Bytes) : Bool := s.isEmpty || s.take 2 == [13, 10]

/-- `HttpParser::skip_next_line`: consume the CRLF when the stream is at a line
end (`BufReader::consume` clamps at end of data). -/
def skip_next_line (s : Bytes) : Bytes := if is_line_end s then s.drop 2 else s

/-- Result of a fallible parser step: `ok`, an I/O-style `Err` return, or a
Rust panic (out-of-bounds slice / underflow abort). -/
inductive PResult (α : Type) where
  | ok : α → PResult α
  | err : PResult α
  | panic : PResult α
deriving DecidableEq, Repr

/-- Sequencing of `PResult` computations (Rust `?` propagation; a panic also
aborts everything downstream). -/
def pbind {α β : Type} : PResult α → (α → PResult β) → PResult β
  | .ok a, f => f a
  | .err, _ => .err
  | .panic, _ => .panic

/-- One decimal digit value, if the byte is a digit. -/
def digitVal (b : Nat) : Option Nat :=
  if 48 ≤ b ∧ b ≤ 57 then some (b - 48) else none

/-- One hexadecimal digit value (either case), if the byte is a hex digit. -/
def hexVal (b : Nat) : Option Nat :=
  if 48 ≤ b ∧ b ≤ 57 then some (b - 48)
  else if 65 ≤ b ∧ b ≤ 70 then some (b - 55)
  else if 97 ≤ b ∧ b ≤ 102 then some (b - 87)
  else none

/-- Left fold of digit accumulation with the checked-arithmetic overflow bound
of 64-bit `usize` (`from_str` / `from_str_radix` error on overflow). -/
def foldDigits (dv : Nat → Option Nat) (base : Nat) (l : Bytes) : Option Nat :=
  l.foldl
    (fun acc b =>
      match acc, dv b with
      | some a, some d => if a * base + d < 2 ^ 64 then some (a * base + d) else none
      | _, _ => none)
    (some 0)

/-- `usize::from_str` (`str::parse::<usize>`): optional leading `+`, then a
non-empty all-decimal-digit string fitting in 64 bits. -/
def parseUsize (l : Bytes) : Option Nat :=
  let l := if l.head? == some 43 then l.drop 1 else l
  if l.isEmpty then none else foldDigits digitVal 10 l

/-- `usize::from_str_radix(_, 16)`: optional leading `+`, then a non-empty
all-hex-digit string fitting in 64 bits. -/
def parseHexUsize (l : Bytes) : Option Nat :=
  let l := if l.head? == some 43 then l.drop 1 else l
  if l.isEmpty then none else foldDigits hexVal 16 l

/-- Byte of a decimal digit. -/
def digitChr (n : Nat) : Nat := 48 + n

/-- Byte of an upper-case hexadecimal digit (Rust `{:X}` formatting). -/
def hexChr (n : Nat) : Nat := if n < 10 then 48 + n else 55 + n

/-- Little-endian digit bytes of `n` (fuel-driven so the kernel can compute). -/
def digitsRevF (base : Nat) (chr : Nat → Nat) : Nat → Nat → Bytes
  | 0, _ => []
  | f + 1, n => if n == 0 then [] else chr (n % base) :: digitsRevF base chr f (n / base)

/-- Decimal rendering of a `usize` (Rust `Display` for unsigned integers). -/
def natDecimal (n : Nat) : Bytes :=
  if n == 0 then [48] else (digitsRevF 10 digitChr n n).reverse

/-- Upper-case hexadecimal rendering of a `usize` (Rust `{:X}`). -/
def natHexUpper (n : Nat) : Bytes :=
  if n == 0 then [48] else (digitsRevF 16 hexChr n n).reverse

/-- Is `sub` a contiguous substring of `hay` (`str::contains`)? -/
def hasSubstr (hay sub : Bytes) : Bool :=
  (List.range (hay.length + 1)).any fun i => sub.isPrefixOf (hay.drop i)

/-- `HttpHeader` from types.rs: a name / value pair of (byte-modelled) strings. -/
structure HttpHeader where
  name : Bytes
  value : Bytes
deriving DecidableEq, Repr

/-- `HttpMethod` from types.rs. -/
inductive HttpMethod where
  | post | get | put | trace | head | options | patch | delete | connect
deriving DecidableEq, Repr

/-- `Display for HttpMethod`. -/
def methodBytes : HttpMethod → Bytes
  | .post => strBytes "POST"
  | .get => strBytes "GET"
  | .put => strBytes "PUT"
  | .trace => strBytes "TRACE"
  | .head => strBytes "HEAD"
  | .options => strBytes "OPTIONS"
  | .patch => strBytes "PATCH"
  | .delete => strBytes "DELETE"
  | .connect => strBytes "CONNECT"

/-- `HttpVersion` from types.rs. -/
inductive HttpVersion where
  | http10 | http11 | http2 | http3
deriving DecidableEq, Repr

/-- `Display for HttpVersion`. -/
def versionBytes : HttpVersion → Bytes
  | .http10 => strBytes "HTTP/1.0"
  | .http11 => strBytes "HTTP/1.1"
  | .http2 => strBytes "HTTP/2"
  | .http3 => strBytes "HTTP/3"

/-- `HttpRequest` from types.rs (the request target is stored as a raw string). -/
structure HttpRequest where
  method : HttpMethod
  url : Bytes
  version : HttpVersion
  headers : List HttpHeader
  body : Bytes
  chunks : List (Nat × Nat)
  chunked : Bool
deriving DecidableEq, Repr

/-- `HttpResponse` from types.rs. -/
structure HttpResponse where
  version : HttpVersion
  statusCode : Nat
  statusMsg : Bytes
  headers : List HttpHeader
  body : Bytes
  chunks : List (Nat × Nat)
  chunked : Bool
deriving DecidableEq, Repr

/-- `HttpRequest::header` / `HttpResponse::header`: first entry whose
lower-cased name matches the lower-cased query name. -/
def findHeader (hs : List HttpHeader) (name : Bytes) : Option HttpHeader :=
  hs.find? fun h => lowerBytes h.name == lowerBytes name

/-- `put_header` (identical on `HttpRequest` and `HttpResponse`): update the
value of the first case-insensitive match in place, else append a new entry. -/
def put_header (name value : Bytes) : List HttpHeader → List HttpHeader
  | [] => [⟨name, value⟩]
  | h :: t =>
    if lowerBytes h.name == lowerBytes name then ⟨h.name, value⟩ :: t
    else h :: put_header name value t

/-- `H_TRANSFER_ENCODING` from definitions.rs. -/
def hTransferEncoding : Bytes := strBytes "Transfer-Encoding"

/-- `H_CONTENT_LENGTH` from definitions.rs. -/
def hContentLength : Bytes := strBytes "Content-Length"

/-- `HttpParser::parse_method`: trim ASCII whitespace, then match against the
literal method tokens actually present in the `match` (PATCH and CONNECT have
no arm in parser.rs even though `HttpMethod` has those variants). -/
def parse_method (l : Bytes) : PResult HttpMethod :=
  let t := trimAscii l
  if t == strBytes "GET" then .ok .get
  else if t == strBytes "POST" then .ok .post
  else if t == strBytes "PUT" then .ok .put
  else if t == strBytes "HEAD" then .ok .head
  else if t == strBytes "OPTIONS" then .ok .options
  else if t == strBytes "DELETE" then .ok .delete
  else if t == strBytes "TRACE" then .ok .trace
  else .err

/-- `HttpParser::parse_version`: trim ASCII whitespace, then accept only the
literal token `HTTP/1.1` (the `HTTP/2` / `HTTP/3` arms are commented out in
parser.rs and there is no `HTTP/1.0` arm). -/
def parse_version (l : Bytes) : PResult HttpVersion :=
  if trimAscii l == strBytes "HTTP/1.1" then .ok .http11 else .err

/-- `HttpParser::parse_status_code`: lossy-decode, `str::trim`, then
`str::parse::<usize>`. -/
def parse_status_code (l : Bytes) : PResult Nat :=
  match parseUsize (trimStr l) with
  | some n => .ok n
  | none => .err

/-- One pass of the header loop in `HttpParser::parse_headers_two`, with fuel
for kernel computability (the loop consumes at least one byte per iteration,
so the fuel used below is never exhausted).  Per iteration: read until `:`,
slice off the final byte of the name buffer, skip `char::is_whitespace` bytes,
read until `\n`, slice off the final two bytes of the value buffer.  The value
slice `value[0..value_len - 2]` underflows and aborts when fewer than two
bytes were read, which is modelled as `.panic`; the name slice is guarded the
same way (it is unreachable inside the loop). -/
def parse_headers_twoF : Nat → Bytes → List HttpHeader → PResult (List HttpHeader × Bytes)
  | 0, _, _ => .err
  | f + 1, s, hs =>
    if is_line_end s then .ok (hs, skip_next_line s)
    else
      let p1 := read_until 58 s
      if p1.1.length == 0 then .panic
      else
        let s1 := p1.2.dropWhile isCharWs
        let p2 := read_until 10 s1
        if p2.1.length < 2 then .panic
        else
          parse_headers_twoF f p2.2
            (hs ++ [⟨p1.1.take (p1.1.length - 1), p2.1.take (p2.1.length - 2)⟩])

/-- `HttpParser::parse_headers_two`: run the header loop on the stream,
returning the collected headers and the remainder after the blank line. -/
def parse_headers_two (s : Bytes) : PResult (List HttpHeader × Bytes) :=
  parse_headers_twoF (s.length + 1) s []

/-- The loop of `HttpParser::read_chunked_body` (fueled; each iteration
consumes at least one byte).  Reads a hex chunk-size line; at `0` it consumes
the terminator line and stops; on an unparsable size line it silently stops;
otherwise it reads the chunk payload (I/O error if the stream is short),
records `(body.len(), body.len() + chunk.len())` and skips the trailing CRLF. -/
def read_chunked_bodyF :
    Nat → Bytes → Bytes → List (Nat × Nat) → PResult (Bytes × List (Nat × Nat) × Bytes)
  | 0, _, _, _ => .err
  | f + 1, s, body, chunks =>
    let p := read_until 10 s
    if p.1.length == 0 then .ok (body, chunks, p.2)
    else
      match parseHexUsize (trimAscii p.1) with
      | none => .ok (body, chunks, p.2)
      | some size =>
        if size == 0 then
          let q := read_until 10 p.2
          .ok (body, chunks, q.2)
        else
          match read_exact size p.2 with
          | none => .err
          | some (chunk, s2) =>
            let q := read_until 10 s2
            read_chunked_bodyF f q.2 (body ++ chunk)
              (chunks ++ [(body.length, body.length + chunk.length)])

/-- `HttpParser::read_chunked_body`: run the chunk loop on an empty body and
chunk list, then append the `(0, 0)` sentinel when any chunk was recorded (an
early `Err` return skips the sentinel, as in the source). -/
def read_chunked_body (s : Bytes) : PResult (Bytes × List (Nat × Nat) × Bytes) :=
  match read_chunked_bodyF (s.length + 1) s [] [] with
  | .ok (body, chunks, rest) =>
    .ok (body, (if chunks.isEmpty then chunks else chunks ++ [(0, 0)]), rest)
  | .err => .err
  | .panic => .panic

/-- `HttpParser::extract_body_data`: chunked when a Transfer-Encoding header is
present whose value does not contain `identity`; else read exactly
Content-Length bytes (error when the value does not parse or the stream is
short); else leave the body empty. -/
def extract_body_data (encodingHeader contentHeader : Option HttpHeader) (s : Bytes) :
    PResult (Bytes × List (Nat × Nat) × Bytes) :=
  let chunked :=
    match encodingHeader with
    | some h => !hasSubstr h.value (strBytes "identity")
    | none => false
  if chunked then read_chunked_body s
  else
    match contentHeader with
    | some h =>
      match parseUsize h.value with
      | some length =>
        match read_exact length s with
        | some (body, rest) => .ok (body, [], rest)
        | none => .err
      | none => .err
    | none => .ok ([], [], s)

/-- `HttpParser::parse_response`: status line (version, status code, trimmed
reason phrase), header loop, then — unless head-only — body framing driven by
the Transfer-Encoding / Content-Length headers, with `chunked` set iff any
chunks were recorded. -/
def parse_response (includeData : Bool) (s : Bytes) : PResult HttpResponse :=
  let p1 := read_until 32 s
  pbind (parse_version p1.1) fun version =>
  let p2 := read_until 32 p1.2
  pbind (parse_status_code p2.1) fun statusCode =>
  let p3 := read_until 10 p2.2
  let statusMsg := trimStr p3.1
  pbind (parse_headers_two p3.2) fun hr =>
  if includeData then
    pbind
      (extract_body_data (findHeader hr.1 hTransferEncoding) (findHeader hr.1 hContentLength)
        hr.2)
      fun br =>
        .ok
          { version, statusCode, statusMsg, headers := hr.1, body := br.1, chunks := br.2.1,
            chunked := !br.2.1.isEmpty }
  else
    .ok
      { version, statusCode, statusMsg, headers := hr.1, body := [], chunks := [],
        chunked := false }

/-- `HttpParser::parse_request`: request line (method, trimmed raw target,
version), header loop, then — unless head-only — the same body framing as for
responses. -/
def parse_request (includeData : Bool) (s : Bytes) : PResult HttpRequest :=
  let p1 := read_until 32 s
  pbind (parse_method p1.1) fun method =>
  let p2 := read_until 32 p1.2
  let url := trimStr p2.1
  let p3 := read_until 10 p2.2
  pbind (parse_version p3.1) fun version =>
  pbind (parse_headers_two p3.2) fun hr =>
  if includeData then
    pbind
      (extract_body_data (findHeader hr.1 hTransferEncoding) (findHeader hr.1 hContentLength)
        hr.2)
      fun br =>
        .ok
          { method, url, version, headers := hr.1, body := br.1, chunks := br.2.1,
            chunked := !br.2.1.isEmpty }
  else
    .ok { method, url, version, headers := hr.1, body := [], chunks := [], chunked := false }

/-- One serialized header line: `format!("{}: {}\r\n", name, value)`. -/
def renderHeader (h : HttpHeader) : Bytes := h.name ++ [58, 32] ++ h.value ++ [13, 10]

/-- The serialized header block, in list order. -/
def renderHeaders : List HttpHeader → Bytes
  | [] => []
  | h :: t => renderHeader h ++ renderHeaders t

/-- Rust slice `body[start..end]`.  The model truncates; the source aborts when
`start > end` or `end > body.len()`, so every theorem about serialization
keeps chunk pairs inside those bounds. -/
def sliceBytes (l : Bytes) (s e : Nat) : Bytes := (l.take e).drop s

/-- The chunk-emission loop of `into_bytes`: for **every** pair in the chunk
index (the `(0, 0)` sentinel included) emit the upper-case hex length of
`end - start`, CRLF, the raw body slice, CRLF. -/
def renderChunks (body : Bytes) : List (Nat × Nat) → Bytes
  | [] => []
  | (s, e) :: t =>
    natHexUpper (e - s) ++ [13, 10] ++ sliceBytes body s e ++ [13, 10] ++ renderChunks body t

/-- `HttpRequest::into_bytes`: request line, header block, blank line, then the
body (chunk-emitted when the chunked flag is set, raw otherwise; nothing when
the body is empty). -/
def HttpRequest.into_bytes (r : HttpRequest) : Bytes :=
  methodBytes r.method ++ [32] ++ r.url ++ [32] ++ versionBytes r.version ++ [13, 10] ++
    renderHeaders r.headers ++ [13, 10] ++
    (if r.body.isEmpty then []
     else if r.chunked then renderChunks r.body r.chunks else r.body)

/-- `HttpResponse::into_bytes`: status line, header block, blank line, then the
body exactly as for requests. -/
def HttpResponse.into_bytes (r : HttpResponse) : Bytes :=
  versionBytes r.version ++ [32] ++ natDecimal r.statusCode ++ [32] ++ r.statusMsg ++ [13, 10] ++
    renderHeaders r.headers ++ [13, 10] ++
    (if r.body.isEmpty then []
     else if r.chunked then renderChunks r.body r.chunks else r.body)

/-- `HttpRequest::add_data`: extend the body; in chunked mode push the pair
`(body.len(), data.len())` — with the body length taken **after** the
extension — and put `Transfer-Encoding: chunked`; otherwise put
`Content-Length` with the new body length. -/
def HttpRequest.add_data (r : HttpRequest) (data : Bytes) : HttpRequest :=
  let body := r.body ++ data
  if r.chunked then
    { r with
      body,
      chunks := r.chunks ++ [(body.length, data.length)],
      headers := put_header hTransferEncoding (strBytes "chunked") r.headers }
  else
    { r with body, headers := put_header hContentLength (natDecimal body.length) r.headers }

/-- `HttpResponse::add_data` (same logic as the request version). -/
def HttpResponse.add_data (r : HttpResponse) (data : Bytes) : HttpResponse :=
  let body := r.body ++ data
  if r.chunked then
    { r with
      body,
      chunks := r.chunks ++ [(body.length, data.length)],
      headers := put_header hTransferEncoding (strBytes "chunked") r.headers }
  else
    { r with body, headers := put_header hContentLength (natDecimal body.length) r.headers }

/-- `str::split` on a single byte delimiter: Rust semantics, so the empty
string yields one empty segment and adjacent delimiters yield empty segments. -/
def splitAll (d : Nat) : Bytes → List Bytes
  | [] => [[]]
  | c :: cs =>
    if c == d then [] :: splitAll d cs
    else
      match splitAll d cs with
      | [] => [[c]]
      | s :: rest => (c :: s) :: rest

/-- `str::split` on a set of byte delimiters (Rust `split(['?', '#'])`). -/
def splitAny (ds : List Nat) : Bytes → List Bytes
  | [] => [[]]
  | c :: cs =>
    if ds.contains c then [] :: splitAny ds cs
    else
      match splitAny ds cs with
      | [] => [[c]]
      | s :: rest => (c :: s) :: rest

/-- First index at which `sub` occurs inside `hay` (`str::find` for a
substring pattern). -/
def findSubPos (hay sub : Bytes) : Option Nat :=
  (List.range (hay.length + 1)).find? fun i => sub.isPrefixOf (hay.drop i)

/-- `HttpUrl` from types.rs.  The query `HashMap` is modelled as an
association list with `insert` replacing an existing key in place; every claim
below touches at most one key, so map iteration order is not observable. -/
structure HttpUrl where
  scheme : Bytes
  host : Bytes
  port : Option Nat
  path : Bytes
  query : List (Bytes × Bytes)
  fragment : Option Bytes
deriving DecidableEq, Repr

/-- `HashMap::insert`: replace the value of an existing key, else append. -/
def mapInsert (k v : Bytes) : List (Bytes × Bytes) → List (Bytes × Bytes)
  | [] => [(k, v)]
  | p :: t => if p.1 == k then (k, v) :: t else p :: mapInsert k v t

/-- `HttpUrl::query`: `HashMap::get`. -/
def HttpUrl.queryGet (u : HttpUrl) (k : Bytes) : Option Bytes :=
  (u.query.find? fun p => p.1 == k).map (·.2)

/-- Decompose a query string: split on `&`, then each pair on `=` with the
value being the segment after the first `=` (empty when there is none),
inserting left to right. -/
def parseQueryString (qs : Bytes) : List (Bytes × Bytes) :=
  (splitAll 38 qs).foldl
    (fun m kv =>
      let parts := splitAll 61 kv
      mapInsert (parts.headD []) (parts.getD 1 []) m)
    []

/-- `u16::from_str` for the port: optional `+`, decimal digits, value below
`2 ^ 16`. -/
def parsePort (l : Bytes) : Option Nat :=
  match parseUsize l with
  | some n => if n < 2 ^ 16 then some n else none
  | none => none

/-- `HttpUrl::parse`: detect an explicit `scheme://` prefix restricted to
http/https, split host[:port] from the path at the first `/`, then strip a
fragment at the first `#` and a query string at the first `?` of what is left;
the stored `path` keeps the query and fragment text verbatim. -/
def HttpUrl.parse (url : Bytes) : Option HttpUrl :=
  let schemeRem : Option (Bytes × Bytes) :=
    match findSubPos url [58, 47, 47] with
    | some pos =>
      let scheme := url.take pos
      if scheme == strBytes "http" || scheme == strBytes "https" then
        some (scheme, url.drop (pos + 3))
      else none
    | none => some (strBytes "http", url)
  match schemeRem with
  | none => none
  | some (scheme, remainder) =>
    let hostPort := remainder.takeWhile (fun b => !(b == 47))
    let pathRest := remainder.drop hostPort.length
    let path : Bytes := 47 :: pathRest.drop 1
    let hp : Option (Bytes × Option Nat) :=
      match hostPort.findIdx? (· == 58) with
      | some i =>
        match parsePort (hostPort.drop (i + 1)) with
        | some p => some (hostPort.take i, some p)
        | none => none
      | none => some (hostPort, none)
    match hp with
    | none => none
    | some (host, port) =>
      let fr : Bytes × Option Bytes :=
        match path.findIdx? (· == 35) with
        | some i => (path.take i, some (path.drop (i + 1)))
        | none => (path, none)
      let query : List (Bytes × Bytes) :=
        match fr.1.findIdx? (· == 63) with
        | some i => parseQueryString (fr.1.drop (i + 1))
        | none => []
      some { scheme, host, port, path, query, fragment := fr.2 }

/-- `join("&")` over rendered `key=value` pairs. -/
def joinAmp : List Bytes → Bytes
  | [] => []
  | [x] => x
  | x :: t => x ++ [38] ++ joinAmp t

/-- `Display for HttpUrl`: scheme, host, optional `:port`, `/` plus the path
when non-empty, `?key=value&...` when the query map is non-empty, `#fragment`
when present. -/
def HttpUrl.render (u : HttpUrl) : Bytes :=
  u.scheme ++ [58, 47, 47] ++ u.host ++
    (match u.port with | some p => 58 :: natDecimal p | none => []) ++
    (if u.path.isEmpty then [] else 47 :: u.path) ++
    (if u.query.isEmpty then [] else 63 :: joinAmp (u.query.map fun p => p.1 ++ [61] ++ p.2)) ++
    (match u.fragment with | some f => 35 :: f | none => [])

/-- `HttpUrl::file`: no file when the path ends in `/` or has no dot; else the
last `/`-segment, with anything from the first `?` or `#` cut off when the
path contains either marker. -/
def HttpUrl.file (u : HttpUrl) : Option Bytes :=
  if u.path.getLast? == some 47 || !u.path.contains 46 then none
  else if u.path.contains 63 || u.path.contains 35 then
    match (splitAll 47 u.path).getLast? with
    | some fp => (splitAny [63, 35] fp).head?
    | none => none
  else (splitAll 47 u.path).getLast?

/-- `HttpUrlBuilder` from types.rs. -/
structure HttpUrlBuilder where
  scheme : Bytes
  host : Bytes
  port : Option Nat
  path : Bytes
  query : List (Bytes × Bytes)
  fragment : Option Bytes
deriving DecidableEq, Repr

namespace HttpUrlBuilder

/-- `HttpUrlBuilder::new`: http scheme, empty host and path, no port, empty
query, no fragment. -/
def new : HttpUrlBuilder :=
  { scheme := strBytes "http", host := [], port := none, path := [], query := [],
    fragment := none }

/-- `HttpUrlBuilder::scheme`. -/
def withScheme (b : HttpUrlBuilder) (s : Bytes) : HttpUrlBuilder := { b with scheme := s }

/-- `HttpUrlBuilder::host`. -/
def withHost (b : HttpUrlBuilder) (h : Bytes) : HttpUrlBuilder := { b with host := h }

/-- `HttpUrlBuilder::port`. -/
def withPort (b : HttpUrlBuilder) (p : Nat) : HttpUrlBuilder := { b with port := some p }

/-- `HttpUrlBuilder::path`. -/
def withPath (b : HttpUrlBuilder) (p : Bytes) : HttpUrlBuilder := { b with path := p }

/-- `HttpUrlBuilder::fragment`. -/
def withFragment (b : HttpUrlBuilder) (f : Bytes) : HttpUrlBuilder :=
  { b with fragment := some f }

/-- `HttpUrlBuilder::param`: insert a key/value pair into the query map. -/
def param (b : HttpUrlBuilder) (k v : Bytes) : HttpUrlBuilder :=
  { b with query := mapInsert k v b.query }

/-- `HttpUrlBuilder::build`. -/
def build (b : HttpUrlBuilder) : HttpUrl :=
  { scheme := b.scheme, host := b.host, port := b.port, path := b.path, query := b.query,
    fragment := b.fragment }

end HttpUrlBuilder

/-- View of a parser result as an option (used to state claims about the
fields of a successful parse). -/
def PResult.toOption {α : Type} : PResult α → Option α
  | .ok a => some a
  | _ => none

/-! ### Canonical-form predicates and renderers used by the theorems -/

/-- A byte list has no leading and no trailing byte satisfying `p`. -/
def NoEdge (p : Nat → Bool) (l : Bytes) : Prop :=
  (∀ b, l.head? = some b → p b = false) ∧ (∀ b, l.getLast? = some b → p b = false)

/-- Bytes that never behave like whitespace, delimiters, or line structure:
the visible ASCII range. -/
def Visible (b : Nat) : Prop := 33 ≤ b ∧ b ≤ 126

instance instDecidableVisible (b : Nat) : Decidable (Visible b) :=
  inferInstanceAs (Decidable (33 ≤ b ∧ b ≤ 126))

/-- Accumulating value of a digit-byte list under a digit-value function. -/
def digitsVal (dv : Nat → Option Nat) (base : Nat) (a : Nat) (l : Bytes) : Nat :=
  l.foldl (fun x b => x * base + (dv b).getD 0) a

/-- A header in canonical wire shape: ASCII name without `:` or `\n`, non-empty
ASCII value without `\n` whose first byte is not whitespace.  Exactly the
headers whose `Name: value\r\n` line the header loop reads back verbatim. -/
def wfHeader (h : HttpHeader) : Bool :=
  h.name.all (fun b => decide (b < 128) && !(b == 58) && !(b == 10)) &&
  !h.value.isEmpty &&
  h.value.all (fun b => decide (b < 128) && !(b == 10)) &&
  !isCharWs (h.value.headD 0)

/-- The chunk sequence of a canonical chunked body: for each data segment, its
upper-case hex length, CRLF, the raw bytes, CRLF. -/
def chunkSeq : List Bytes → Bytes
  | [] => []
  | c :: t => natHexUpper c.length ++ [13, 10] ++ c ++ [13, 10] ++ chunkSeq t

/-- A full canonical chunked body: the chunk sequence terminated by
`0 CRLF CRLF`. -/
def chunkedWire (segs : List Bytes) : Bytes := chunkSeq segs ++ [48, 13, 10, 13, 10]

/-- Concatenation of the data segments: the reassembled body. -/
def concatB : List Bytes → Bytes
  | [] => []
  | c :: t => c ++ concatB t

/-- The chunk-index offsets the parser records for segments appended starting
at body offset `b`. -/
def offsetsFrom (b : Nat) : List Bytes → List (Nat × Nat)
  | [] => []
  | c :: t => (b, b + c.length) :: offsetsFrom (b + c.length) t

/-- A canonical segment list: every chunk is non-empty (a zero size would
terminate the chunk loop) and its size fits `usize`. -/
def wfSegs (segs : List Bytes) : Bool :=
  segs.all fun c => !c.isEmpty && decide (c.length < 2 ^ 64)

/-- Free text in canonical position (reason phrase): ASCII, no `\n`, and no
leading or trailing whitespace (interior blanks allowed). -/
def wfText (l : Bytes) : Bool :=
  l.all (fun b => decide (b < 128) && !(b == 10)) &&
  !isCharWs (l.headD 33) && !isCharWs (l.getLastD 33)

/-- A whitespace-free ASCII token (the request target). -/
def wfToken (l : Bytes) : Bool :=
  l.all fun b => decide (b < 128) && !isCharWs b

/-- Canonical response head: `HTTP/1.1 <code> <msg>\r\n`, header block, blank
line. -/
def renderRespHead (code : Nat) (msg : Bytes) (hs : List HttpHeader) : Bytes :=
  strBytes "HTTP/1.1" ++ [32] ++ natDecimal code ++ [32] ++ msg ++ [13, 10] ++
    renderHeaders hs ++ [13, 10]

/-- Canonical request head: `<METHOD> <target> HTTP/1.1\r\n`, header block,
blank line. -/
def renderReqHead (m : HttpMethod) (url : Bytes) (hs : List HttpHeader) : Bytes :=
  methodBytes m ++ [32] ++ url ++ [32] ++ strBytes "HTTP/1.1" ++ [13, 10] ++
    renderHeaders hs ++ [13, 10]

/-- Two headers have distinct case-insensitive names (the HeaderList
uniqueness invariant is `List.Pairwise HdrDistinct`). -/
def HdrDistinct (a b : HttpHeader) : Prop := lowerBytes a.name ≠ lowerBytes b.name

/-- The chunked demo segments from the crate doc-test. -/
def demoSegs : List Bytes := [strBytes "Mozilla", strBytes "Developer Network"]

/-- Headers of the chunked demo response from the crate doc-test. -/
def demoRespHeaders : List HttpHeader :=
  [⟨strBytes "Content-Type", strBytes "text/plain"⟩,
    ⟨strBytes "Transfer-Encoding", strBytes "chunked"⟩]

/-- Headers of the demo request from the crate tests. -/
def demoReqHeaders : List HttpHeader :=
  [⟨strBytes "Host", strBytes "developer.mozilla.org"⟩,
    ⟨strBytes "Accept-Language", strBytes "fr"⟩]

/-! ### Stream primitive lemmas -/

theorem read_until_append (d : Nat) (a r : Bytes) (h : d ∉ a) :
    read_until d (a ++ d :: r) = (a ++ [d], r) := by
  induction a with
  | nil => simp [read_until]
  | cons c t ih =>
    have hc : ¬c = d := fun hcd => h (by simp [hcd])
    have ht : d ∉ t := fun hm => h (by simp [hm])
    simp [read_until, hc, ih ht]

theorem read_until_all (d : Nat) (a : Bytes) (h : d ∉ a) :
    read_until d a = (a, []) := by
  induction a with
  | nil => simp [read_until]
  | cons c t ih =>
    have hc : ¬c = d := fun hcd => h (by simp [hcd])
    have ht : d ∉ t := fun hm => h (by simp [hm])
    simp [read_until, hc, ih ht]

theorem dropWhile_append_all (p : Nat → Bool) (a b : Bytes) (h : ∀ x ∈ a, p x) :
    (a ++ b).dropWhile p = b.dropWhile p := by
  induction a with
  | nil => simp
  | cons x t ih =>
    simp only [List.cons_append, List.dropWhile, h x (by simp)]
    exact ih fun y hy => h y (by simp [hy])

theorem dropWhile_cons_neg (p : Nat → Bool) (x : Nat) (l : Bytes) (h : p x = false) :
    (x :: l).dropWhile p = x :: l := by
  simp [List.dropWhile, h]

theorem trim_core (p : Nat → Bool) (l w : Bytes) (hl : NoEdge p l) (hw : ∀ b ∈ w, p b) :
    ((((l ++ w).dropWhile p).reverse.dropWhile p).reverse) = l := by
  cases l with
  | nil =>
    have h1 : w.dropWhile p = [] := by
      have h2 := dropWhile_append_all p w [] hw
      simpa using h2
    rw [List.nil_append, h1]
    simp
  | cons x t =>
    have hx : p x = false := hl.1 x rfl
    have h1 : ((x :: t) ++ w).dropWhile p = (x :: t) ++ w := by
      rw [List.cons_append]
      exact dropWhile_cons_neg p x (t ++ w) hx
    rw [h1]
    have h2 : ((x :: t) ++ w).reverse = w.reverse ++ (x :: t).reverse :=
      List.reverse_append _ _
    rw [h2]
    have hwrev : ∀ b ∈ w.reverse, p b := fun b hb => hw b (List.mem_reverse.mp hb)
    rw [dropWhile_append_all p w.reverse (x :: t).reverse hwrev]
    obtain ⟨y, u, hyu⟩ : ∃ y u, (x :: t).reverse = y :: u := by
      cases hrev : (x :: t).reverse with
      | nil =>
        have hlen := congrArg List.length hrev
        simp at hlen
      | cons y u => exact ⟨y, u, rfl⟩
    have hy : (x :: t).getLast? = some y := by
      rw [List.getLast?_eq_head?_reverse, hyu]; rfl
    have hpy : p y = false := hl.2 y hy
    rw [hyu, dropWhile_cons_neg p y u hpy, ← hyu]
    simp

theorem trimStr_append (l w : Bytes) (hl : NoEdge isCharWs l) (hw : ∀ b ∈ w, isCharWs b) :
    trimStr (l ++ w) = l :=
  trim_core isCharWs l w hl hw

theorem trimAscii_append (l w : Bytes) (hl : NoEdge isAsciiWs l) (hw : ∀ b ∈ w, isAsciiWs b) :
    trimAscii (l ++ w) = l :=
  trim_core isAsciiWs l w hl hw

theorem visible_not_charWs {b : Nat} (h : Visible b) : isCharWs b = false := by
  obtain ⟨h1, h2⟩ := h
  simp only [isCharWs, Bool.or_eq_false_iff, beq_eq_false_iff_ne, ne_eq]
  omega

theorem visible_not_asciiWs {b : Nat} (h : Visible b) : isAsciiWs b = false := by
  obtain ⟨h1, h2⟩ := h
  simp only [isAsciiWs, Bool.or_eq_false_iff, beq_eq_false_iff_ne, ne_eq]
  omega

theorem noEdge_of_all (p : Nat → Bool) (l : Bytes) (h : ∀ b ∈ l, p b = false) :
    NoEdge p l := by
  refine ⟨fun b hb => h b ?_, fun b hb => h b ?_⟩
  · exact List.mem_of_mem_head? hb
  · cases l with
    | nil => simp at hb
    | cons x t => exact List.mem_of_mem_getLast? hb

/-! ### Numeral rendering / parsing lemmas -/

theorem digitsRevF_mem (base : Nat) (chr : Nat → Nat) (hbase : 0 < base) :
    ∀ f n b, b ∈ digitsRevF base chr f n → ∃ d, d < base ∧ b = chr d := by
  intro f
  induction f with
  | zero => intro n b hb; simp [digitsRevF] at hb
  | succ f ih =>
    intro n b hb
    by_cases hn : n = 0
    · simp [digitsRevF, hn] at hb
    · simp only [digitsRevF, beq_iff_eq, hn, if_false, List.mem_cons] at hb
      rcases hb with hb | hb
      · exact ⟨n % base, Nat.mod_lt n hbase, hb⟩
      · exact ih (n / base) b hb

theorem digitsVal_ge (dv : Nat → Option Nat) (base : Nat) (hb : 1 ≤ base) :
    ∀ (l : Bytes) (a : Nat), a ≤ digitsVal dv base a l := by
  intro l
  induction l with
  | nil => intro a; simp [digitsVal]
  | cons c t ih =>
    intro a
    have h1 : a ≤ a * base + (dv c).getD 0 := by
      have := Nat.le_mul_of_pos_right a hb
      omega
    calc a ≤ a * base + (dv c).getD 0 := h1
      _ ≤ digitsVal dv base (a * base + (dv c).getD 0) t := ih _

theorem foldDigits_eval (dv : Nat → Option Nat) (base : Nat) (hb : 1 ≤ base) :
    ∀ (l : Bytes) (a : Nat), (∀ b ∈ l, ∃ d, dv b = some d) →
      digitsVal dv base a l < 2 ^ 64 →
      l.foldl
        (fun acc b =>
          match acc, dv b with
          | some x, some d => if x * base + d < 2 ^ 64 then some (x * base + d) else none
          | _, _ => none)
        (some a) = some (digitsVal dv base a l) := by
  intro l
  induction l with
  | nil => intro a _ _; simp [digitsVal]
  | cons c t ih =>
    intro a hdig hbound
    obtain ⟨d, hd⟩ := hdig c (by simp)
    have hval : digitsVal dv base a (c :: t) = digitsVal dv base (a * base + d) t := by
      simp [digitsVal, hd]
    have hlt : a * base + d < 2 ^ 64 := by
      have h1 : a * base + d ≤ digitsVal dv base (a * base + d) t :=
        digitsVal_ge dv base hb t _
      rw [hval] at hbound
      omega
    simp only [List.foldl_cons, hd, hlt, if_true]
    rw [hval] at hbound ⊢
    exact ih _ (fun b hbm => hdig b (by simp [hbm])) hbound

theorem digitsVal_digitsRevF (dv : Nat → Option Nat) (base : Nat) (chr : Nat → Nat)
    (hb : 2 ≤ base) (hdv : ∀ d, d < base → dv (chr d) = some d) :
    ∀ f n a, n < base ^ f →
      digitsVal dv base a ((digitsRevF base chr f n).reverse) =
        a * base ^ (digitsRevF base chr f n).length + n := by
  intro f
  induction f with
  | zero =>
    intro n a hn
    have : n = 0 := by simpa using hn
    subst this
    simp [digitsRevF, digitsVal]
  | succ f ih =>
    intro n a hn
    by_cases hn0 : n = 0
    · subst hn0; simp [digitsRevF, digitsVal]
    · have hbpos : 0 < base := by omega
      have hdivlt : n / base < base ^ f := by
        rw [Nat.div_lt_iff_lt_mul hbpos]
        calc n < base ^ (f + 1) := hn
          _ = base ^ f * base := by ring
      simp only [digitsRevF, beq_iff_eq, hn0, if_false, List.reverse_cons, List.length_cons]
      have hsplit : ∀ (m : Nat) (l : Bytes) (c : Nat),
          digitsVal dv base m (l ++ [c]) = digitsVal dv base m l * base + (dv c).getD 0 := by
        intro m l c
        simp [digitsVal, List.foldl_append]
      rw [hsplit, ih (n / base) a hdivlt, hdv (n % base) (Nat.mod_lt n hbpos)]
      simp only [Option.getD_some]
      have hmod : n / base * base + n % base = n := Nat.div_add_mod' n base
      calc (a * base ^ (digitsRevF base chr f (n / base)).length + n / base) * base + n % base
          = a * (base ^ (digitsRevF base chr f (n / base)).length * base) +
            (n / base * base + n % base) := by ring
        _ = a * base ^ ((digitsRevF base chr f (n / base)).length + 1) + n := by
            rw [hmod, pow_succ]

theorem digitVal_digitChr (d : Nat) (hd : d < 10) : digitVal (digitChr d) = some d := by
  simp only [digitVal, digitChr]
  rw [if_pos (by omega)]
  congr 1
  omega

theorem hexVal_hexChr (d : Nat) (hd : d < 16) : hexVal (hexChr d) = some d := by
  by_cases h : d < 10
  · simp only [hexVal, hexChr, if_pos h]
    rw [if_pos (by omega)]
    congr 1
    omega
  · simp only [hexVal, hexChr, if_neg h]
    rw [if_neg (by omega), if_pos (by omega)]
    congr 1
    omega

theorem natDecimal_mem_digit {n b : Nat} (hb : b ∈ natDecimal n) : 48 ≤ b ∧ b ≤ 57 := by
  by_cases hn : n = 0
  · subst hn; simp [natDecimal] at hb; omega
  · simp only [natDecimal, beq_iff_eq, hn, if_false, List.mem_reverse] at hb
    obtain ⟨d, hd, hbd⟩ := digitsRevF_mem 10 digitChr (by omega) n n b hb
    subst hbd
    simp [digitChr]
    omega

theorem natHexUpper_mem_hexdigit {n b : Nat} (hb : b ∈ natHexUpper n) :
    (48 ≤ b ∧ b ≤ 57) ∨ (65 ≤ b ∧ b ≤ 70) := by
  by_cases hn : n = 0
  · subst hn; simp [natHexUpper] at hb; omega
  · simp only [natHexUpper, beq_iff_eq, hn, if_false, List.mem_reverse] at hb
    obtain ⟨d, hd, hbd⟩ := digitsRevF_mem 16 hexChr (by omega) n n b hb
    subst hbd
    by_cases h : d < 10
    · left; simp [hexChr, h]; omega
    · right; simp [hexChr, h]; omega

theorem natDecimal_mem_visible {n b : Nat} (hb : b ∈ natDecimal n) : Visible b := by
  have := natDecimal_mem_digit hb
  exact ⟨by omega, by omega⟩

theorem natHexUpper_mem_visible {n b : Nat} (hb : b ∈ natHexUpper n) : Visible b := by
  rcases natHexUpper_mem_hexdigit hb with h | h <;> exact ⟨by omega, by omega⟩

theorem natDecimal_ne_nil (n : Nat) : natDecimal n ≠ [] := by
  by_cases hn : n = 0
  · subst hn; simp [natDecimal]
  · simp only [natDecimal, beq_iff_eq, hn, if_false, ne_eq, List.reverse_eq_nil_iff]
    cases hf : n with
    | zero => omega
    | succ f =>
      simp [digitsRevF, hn]

theorem natHexUpper_ne_nil (n : Nat) : natHexUpper n ≠ [] := by
  by_cases hn : n = 0
  · subst hn; simp [natHexUpper]
  · simp only [natHexUpper, beq_iff_eq, hn, if_false, ne_eq, List.reverse_eq_nil_iff]
    cases hf : n with
    | zero => omega
    | succ f =>
      simp [digitsRevF, hn]

theorem parseUsize_eq_fold (l : Bytes) (hne : l ≠ []) (hh : l.head? ≠ some 43) :
    parseUsize l = foldDigits digitVal 10 l := by
  have h1 : (l.head? == some 43) = false := by simpa using hh
  have h2 : l.isEmpty = false := by simpa using hne
  simp [parseUsize, h1, h2]

theorem parseHexUsize_eq_fold (l : Bytes) (hne : l ≠ []) (hh : l.head? ≠ some 43) :
    parseHexUsize l = foldDigits hexVal 16 l := by
  have h1 : (l.head? == some 43) = false := by simpa using hh
  have h2 : l.isEmpty = false := by simpa using hne
  simp [parseHexUsize, h1, h2]

theorem parseUsize_natDecimal (n : Nat) (h : n < 2 ^ 64) :
    parseUsize (natDecimal n) = some n := by
  by_cases hn : n = 0
  · subst hn; decide
  · have hne := natDecimal_ne_nil n
    have hhead : (natDecimal n).head? ≠ some 43 := by
      intro hc
      have hm : (43 : Nat) ∈ natDecimal n := List.mem_of_mem_head? hc
      have := natDecimal_mem_digit hm
      omega
    rw [parseUsize_eq_fold _ hne hhead]
    have hval : digitsVal digitVal 10 0 (natDecimal n) = n := by
      have hlt : n < 10 ^ n := Nat.lt_pow_self (by omega) n
      have := digitsVal_digitsRevF digitVal 10 digitChr (by omega) digitVal_digitChr n n 0 hlt
      simp only [natDecimal, beq_iff_eq, hn, if_false]
      rw [this]
      ring
    have hdig : ∀ b ∈ natDecimal n, ∃ d, digitVal b = some d := by
      intro b hb
      have := natDecimal_mem_digit hb
      exact ⟨b - 48, by simp [digitVal]; omega⟩
    have := foldDigits_eval digitVal 10 (by omega) (natDecimal n) 0 hdig (by rw [hval]; exact h)
    rw [foldDigits, this, hval]

theorem parseHexUsize_natHexUpper (n : Nat) (h : n < 2 ^ 64) :
    parseHexUsize (natHexUpper n) = some n := by
  by_cases hn : n = 0
  · subst hn; decide
  · have hne := natHexUpper_ne_nil n
    have hhead : (natHexUpper n).head? ≠ some 43 := by
      intro hc
      have hm : (43 : Nat) ∈ natHexUpper n := List.mem_of_mem_head? hc
      rcases natHexUpper_mem_hexdigit hm with h2 | h2 <;> omega
    rw [parseHexUsize_eq_fold _ hne hhead]
    have hval : digitsVal hexVal 16 0 (natHexUpper n) = n := by
      have hlt : n < 16 ^ n := Nat.lt_pow_self (by omega) n
      have := digitsVal_digitsRevF hexVal 16 hexChr (by omega) hexVal_hexChr n n 0 hlt
      simp only [natHexUpper, beq_iff_eq, hn, if_false]
      rw [this]
      ring
    have hdig : ∀ b ∈ natHexUpper n, ∃ d, hexVal b = some d := by
      intro b hb
      rcases natHexUpper_mem_hexdigit hb with h2 | h2
      · exact ⟨b - 48, by simp [hexVal]; omega⟩
      · refine ⟨b - 55, ?_⟩
        simp only [hexVal]
        rw [if_neg (by omega), if_pos (by omega)]
    have := foldDigits_eval hexVal 16 (by omega) (natHexUpper n) 0 hdig (by rw [hval]; exact h)
    rw [foldDigits, this, hval]

/-! ### Canonical wire form and the header-loop lemma -/

theorem wfHeader_spec {h : HttpHeader} (hw : wfHeader h = true) :
    (∀ b ∈ h.name, b < 128 ∧ ¬b = 58 ∧ ¬b = 10) ∧ h.value ≠ [] ∧
      (∀ b ∈ h.value, b < 128 ∧ ¬b = 10) ∧ isCharWs (h.value.headD 0) = false := by
  simp only [wfHeader, Bool.and_eq_true, List.all_eq_true, Bool.not_eq_true',
    decide_eq_true_eq, beq_eq_false_iff_ne, ne_eq, Bool.and_eq_true] at hw
  obtain ⟨⟨⟨hn, hne⟩, hv⟩, hh⟩ := hw
  refine ⟨fun b hb => ⟨(hn b hb).1.1, (hn b hb).1.2, (hn b hb).2⟩, ?_,
    fun b hb => ⟨(hv b hb).1, (hv b hb).2⟩, hh⟩
  intro hc
  rw [hc] at hne
  simp at hne

theorem is_line_end_render (h : HttpHeader) (tail : Bytes) (hw : wfHeader h = true) :
    is_line_end (renderHeader h ++ tail) = false := by
  obtain ⟨hn, _, _, _⟩ := wfHeader_spec hw
  match hname : h.name with
  | [] => simp [renderHeader, hname, is_line_end, List.take]
  | [a] => simp [renderHeader, hname, is_line_end, List.take]
  | a :: b :: t =>
    have hb10 : ¬b = 10 := (hn b (by rw [hname]; simp)).2.2
    simp [renderHeader, hname, is_line_end, List.take, hb10]

theorem parse_headers_twoF_render :
    ∀ (hs : List HttpHeader) (f : Nat) (acc : List HttpHeader) (rest : Bytes),
      (∀ h ∈ hs, wfHeader h = true) →
      (renderHeaders hs ++ [13, 10] ++ rest).length < f →
      parse_headers_twoF f (renderHeaders hs ++ [13, 10] ++ rest) acc = .ok (acc ++ hs, rest) := by
  intro hs
  induction hs with
  | nil =>
    intro f acc rest _ hf
    match f with
    | 0 => simp at hf
    | f + 1 =>
      have hle : is_line_end ((13 : Nat) :: 10 :: rest) = true := by
        simp [is_line_end, List.take]
      simp only [renderHeaders, List.nil_append, List.cons_append]
      simp [parse_headers_twoF, hle, skip_next_line, is_line_end, List.take]
  | cons h t ih =>
    intro f acc rest hwf hf
    have hw : wfHeader h = true := hwf h (by simp)
    obtain ⟨hn, hvne, hv, hvh⟩ := wfHeader_spec hw
    obtain ⟨v0, vt, hv0⟩ : ∃ v0 vt, h.value = v0 :: vt := by
      cases hval : h.value with
      | nil => exact absurd hval hvne
      | cons v0 vt => exact ⟨v0, vt, rfl⟩
    match f with
    | 0 => simp at hf
    | f + 1 =>
      set restAll := renderHeaders t ++ [13, 10] ++ rest with hrestAll
      have hs_eq : renderHeaders (h :: t) ++ [13, 10] ++ rest = renderHeader h ++ restAll := by
        simp [renderHeaders, hrestAll]
      have hle := is_line_end_render h restAll hw
      -- step b: read the name up to the colon
      have h58 : (58 : Nat) ∉ h.name := fun hm => (hn 58 hm).2.1 rfl
      have hru1 : read_until 58 (renderHeader h ++ restAll) =
          (h.name ++ [58], 32 :: (h.value ++ [13, 10] ++ restAll)) := by
        have : renderHeader h ++ restAll =
            h.name ++ 58 :: (32 :: (h.value ++ [13, 10] ++ restAll)) := by
          simp [renderHeader]
        rw [this, read_until_append 58 _ _ h58]
      -- step c: skip the single space, stopping at the value head
      have hdw : (32 :: (h.value ++ [13, 10] ++ restAll)).dropWhile isCharWs =
          h.value ++ [13, 10] ++ restAll := by
        have h32 : isCharWs 32 = true := by decide
        rw [List.dropWhile_cons_of_pos (by simpa using h32)]
        rw [hv0]
        have hv0ws : isCharWs v0 = false := by
          have := hvh
          rw [hv0] at this
          simpa using this
        exact dropWhile_cons_neg _ _ _ (by simpa [hv0] using hv0ws)
      -- step d: read the value line up to the newline
      have h10 : (10 : Nat) ∉ h.value ++ [13] := by
        intro hm
        rcases List.mem_append.mp hm with hm | hm
        · exact (hv 10 hm).2 rfl
        · simp at hm
      have hru2 : read_until 10 (h.value ++ [13, 10] ++ restAll) =
          (h.value ++ [13, 10], restAll) := by
        have : h.value ++ [13, 10] ++ restAll = (h.value ++ [13]) ++ 10 :: restAll := by
          simp
        rw [this, read_until_append 10 _ _ h10]
        simp
      -- assemble one loop iteration
      have htake1 : (h.name ++ [58]).take ((h.name ++ [58]).length - 1) = h.name := by
        have he : (h.name ++ [58]).length - 1 = h.name.length := by simp
        rw [he]
        exact List.take_left h.name [58]
      have htake2 : (h.value ++ [13, 10]).take ((h.value ++ [13, 10]).length - 2) = h.value := by
        have he : (h.value ++ [13, 10]).length - 2 = h.value.length := by simp
        rw [he]
        exact List.take_left h.value [13, 10]
      have hfuel : (renderHeaders t ++ [13, 10] ++ rest).length < f := by
        simp only [renderHeaders, renderHeader, List.append_assoc, List.length_append,
          List.length_cons, List.length_nil] at hf ⊢
        omega
      rw [hs_eq, parse_headers_twoF]
      rw [if_neg (by simp [hle])]
      simp only [hru1, hdw, hru2]
      rw [if_neg (by simp)]
      rw [if_neg (by
        simp only [List.length_append, List.length_cons, List.length_nil]
        omega)]
      rw [htake1, htake2, hrestAll]
      have hrec := ih f (acc ++ [HttpHeader.mk h.name h.value]) rest
        (fun h2 hm => hwf h2 (by simp [hm])) hfuel
      rw [hrec]
      simp

theorem parse_headers_two_render (hs : List HttpHeader) (rest : Bytes)
    (hwf : ∀ h ∈ hs, wfHeader h = true) :
    parse_headers_two (renderHeaders hs ++ [13, 10] ++ rest) = .ok (hs, rest) := by
  have h := parse_headers_twoF_render hs
    ((renderHeaders hs ++ [13, 10] ++ rest).length + 1) [] rest hwf (by omega)
  simpa [parse_headers_two] using h

/-! ### Chunked wire form lemmas -/

theorem chunkedWire_cons (c : Bytes) (t : List Bytes) :
    chunkedWire (c :: t) =
      natHexUpper c.length ++ [13, 10] ++ c ++ [13, 10] ++ chunkedWire t := by
  simp [chunkedWire, chunkSeq]

theorem natHexUpper_not_asciiWs {n b : Nat} (hb : b ∈ natHexUpper n) : isAsciiWs b = false :=
  visible_not_asciiWs (natHexUpper_mem_visible hb)

theorem trimAscii_natHexUpper (n : Nat) : trimAscii (natHexUpper n ++ [13, 10]) = natHexUpper n := by
  refine trimAscii_append _ _ ?_ (by decide)
  exact noEdge_of_all _ _ fun b hb => natHexUpper_not_asciiWs hb

theorem read_chunked_bodyF_wire :
    ∀ (segs : List Bytes) (f : Nat) (body : Bytes) (chunks : List (Nat × Nat)),
      wfSegs segs = true →
      (chunkedWire segs).length < f →
      read_chunked_bodyF f (chunkedWire segs) body chunks =
        .ok (body ++ concatB segs, chunks ++ offsetsFrom body.length segs, []) := by
  intro segs
  induction segs with
  | nil =>
    intro f body chunks _ hf
    match f with
    | 0 => simp [chunkedWire, chunkSeq] at hf
    | f + 1 =>
      have h1 : read_until 10 (chunkedWire []) = ([48, 13, 10], [13, 10]) := by decide
      have h2 : parseHexUsize (trimAscii [48, 13, 10]) = some 0 := by decide
      rw [read_chunked_bodyF, h1]
      simp only [List.length_cons, List.length_nil]
      rw [if_neg (by simp)]
      rw [h2]
      simp [read_until, concatB, offsetsFrom]
  | cons c t ih =>
    intro f body chunks hwf hf
    have hwfc : (!c.isEmpty && decide (c.length < 2 ^ 64)) = true := by
      have := List.all_eq_true.mp hwf c (by simp)
      simpa using this
    have hparts : c.isEmpty = false ∧ c.length < 2 ^ 64 := by
      simpa using hwfc
    have hcne : c ≠ [] := by
      intro hc
      rw [hc] at hparts
      simp at hparts
    have hclt : c.length < 2 ^ 64 := hparts.2
    have hwft : wfSegs t = true := by
      simp only [wfSegs, List.all_eq_true] at hwf ⊢
      exact fun x hx => hwf x (by simp [hx])
    match f with
    | 0 => simp at hf
    | f + 1 =>
      have h10hex : (10 : Nat) ∉ natHexUpper c.length ++ [13] := by
        intro hm
        rcases List.mem_append.mp hm with hm | hm
        · rcases natHexUpper_mem_hexdigit hm with h | h <;> omega
        · simp at hm
      have hru1 : read_until 10 (chunkedWire (c :: t)) =
          (natHexUpper c.length ++ [13, 10], c ++ [13, 10] ++ chunkedWire t) := by
        rw [chunkedWire_cons]
        have he : natHexUpper c.length ++ [13, 10] ++ c ++ [13, 10] ++ chunkedWire t =
            (natHexUpper c.length ++ [13]) ++ 10 :: (c ++ [13, 10] ++ chunkedWire t) := by
          simp
        rw [he, read_until_append 10 _ _ h10hex]
        simp
      have hhex : parseHexUsize (trimAscii (natHexUpper c.length ++ [13, 10])) =
          some c.length := by
        rw [trimAscii_natHexUpper]
        exact parseHexUsize_natHexUpper c.length hclt
      have hsize0 : (c.length == 0) = false := by
        have : c.length ≠ 0 := by
          intro hc
          exact hcne (List.length_eq_zero.mp hc)
        simpa using this
      have hre : read_exact c.length (c ++ [13, 10] ++ chunkedWire t) =
          some (c, [13, 10] ++ chunkedWire t) := by
        rw [read_exact, if_pos (by simp)]
        rw [List.append_assoc]
        rw [List.take_left c _, List.drop_left c _]
      have hru2 : read_until 10 ([13, 10] ++ chunkedWire t) = ([13, 10], chunkedWire t) := by
        have he : ([13, 10] : Bytes) ++ chunkedWire t = [13] ++ 10 :: chunkedWire t := by simp
        rw [he, read_until_append 10 _ _ (by decide)]
        simp
      have hfuel : (chunkedWire t).length < f := by
        have hlen := congrArg List.length (chunkedWire_cons c t)
        simp only [List.length_append, List.length_cons, List.length_nil] at hlen hf
        omega
      rw [read_chunked_bodyF, hru1]
      rw [if_neg (by simp)]
      rw [hhex]
      simp only [hsize0, Bool.false_eq_true, if_false, hre, hru2]
      rw [ih f (body ++ c) (chunks ++ [(body.length, body.length + c.length)]) hwft hfuel]
      simp [concatB, offsetsFrom, List.append_assoc]

theorem offsetsFrom_ne_nil (b : Nat) (c : Bytes) (t : List Bytes) :
    offsetsFrom b (c :: t) ≠ [] := by
  simp [offsetsFrom]

theorem read_chunked_body_wire (segs : List Bytes) (hwf : wfSegs segs = true)
    (hne : segs ≠ []) :
    read_chunked_body (chunkedWire segs) =
      .ok (concatB segs, offsetsFrom 0 segs ++ [(0, 0)], []) := by
  have h := read_chunked_bodyF_wire segs ((chunkedWire segs).length + 1) [] [] hwf (by omega)
  rw [read_chunked_body, h]
  cases segs with
  | nil => exact absurd rfl hne
  | cons c t =>
    have : (offsetsFrom 0 (c :: t)).isEmpty = false := by
      simp [offsetsFrom]
    simp [this]

theorem renderChunks_append (body : Bytes) (a b : List (Nat × Nat)) :
    renderChunks body (a ++ b) = renderChunks body a ++ renderChunks body b := by
  induction a with
  | nil => simp [renderChunks]
  | cons p t ih => simp [renderChunks, ih]

theorem sliceBytes_extract (pre c post : Bytes) :
    sliceBytes (pre ++ c ++ post) pre.length (pre.length + c.length) = c := by
  have hl : pre ++ c ++ post = pre ++ (c ++ post) := List.append_assoc pre c post
  rw [sliceBytes, hl, List.take_add, List.take_left pre (c ++ post),
    List.drop_left pre (c ++ post), List.take_left c post, List.drop_left pre c]

theorem renderChunks_offsetsFrom :
    ∀ (segs : List Bytes) (pre : Bytes),
      renderChunks (pre ++ concatB segs) (offsetsFrom pre.length segs) = chunkSeq segs := by
  intro segs
  induction segs with
  | nil => intro pre; simp [offsetsFrom, renderChunks, chunkSeq]
  | cons c t ih =>
    intro pre
    have hbody : pre ++ concatB (c :: t) = (pre ++ c) ++ concatB t := by
      simp [concatB]
    rw [offsetsFrom, renderChunks, chunkSeq]
    have hslice : sliceBytes (pre ++ concatB (c :: t)) pre.length (pre.length + c.length) = c := by
      have : pre ++ concatB (c :: t) = pre ++ c ++ concatB t := by simp [concatB]
      rw [this]
      exact sliceBytes_extract pre c (concatB t)
    rw [hslice]
    have hlen : pre.length + c.length = (pre ++ c).length := by simp
    rw [hbody, hlen, ih (pre ++ c)]
    have : (pre ++ c).length - pre.length = c.length := by simp
    rw [this]

theorem renderChunks_sentinel (body : Bytes) :
    renderChunks body [(0, 0)] = [48, 13, 10, 13, 10] := by
  simp [renderChunks, natHexUpper, sliceBytes]

theorem renderChunks_canonical (segs : List Bytes) :
    renderChunks (concatB segs) (offsetsFrom 0 segs ++ [(0, 0)]) = chunkedWire segs := by
  rw [renderChunks_append, renderChunks_sentinel]
  have h := renderChunks_offsetsFrom segs []
  simpa [chunkedWire] using h

theorem concatB_ne_nil (c : Bytes) (t : List Bytes) (hc : c ≠ []) :
    concatB (c :: t) ≠ [] := by
  simp only [concatB, ne_eq, List.append_eq_nil]
  intro ⟨h1, _⟩
  exact hc h1

/-! ### Canonical start lines -/

theorem wfText_spec {l : Bytes} (hw : wfText l = true) :
    (∀ b ∈ l, b < 128 ∧ ¬b = 10) ∧ NoEdge isCharWs l := by
  simp only [wfText, Bool.and_eq_true, List.all_eq_true, Bool.not_eq_true',
    decide_eq_true_eq, beq_eq_false_iff_ne, ne_eq] at hw
  obtain ⟨⟨hall, hh⟩, hl⟩ := hw
  refine ⟨fun b hb => ⟨(hall b hb).1, (hall b hb).2⟩, ?_, ?_⟩
  · intro b hb
    have : l.headD 33 = b := by
      cases l with
      | nil => simp at hb
      | cons x t =>
        simp only [List.head?_cons, Option.some_inj] at hb
        simp [hb]
    rw [← this]
    exact hh
  · intro b hb
    have : l.getLastD 33 = b := by
      rw [List.getLastD_eq_getLast?, hb]
      rfl
    rw [← this]
    exact hl

theorem wfToken_spec {l : Bytes} (hw : wfToken l = true) :
    ∀ b ∈ l, b < 128 ∧ isCharWs b = false := by
  simp only [wfToken, Bool.and_eq_true, List.all_eq_true, Bool.not_eq_true',
    decide_eq_true_eq] at hw
  exact fun b hb => ⟨(hw b hb).1, (hw b hb).2⟩

theorem charWs_10 : isCharWs 10 = true := by decide

theorem ws_32 : isCharWs 32 = true := by decide

theorem noEdge_charWs_natDecimal (code : Nat) : NoEdge isCharWs (natDecimal code) :=
  noEdge_of_all _ _ fun _ hb => visible_not_charWs (natDecimal_mem_visible hb)

theorem parse_status_code_canonical (code : Nat) (hcode : code < 2 ^ 64) :
    parse_status_code (natDecimal code ++ [32]) = .ok code := by
  rw [parse_status_code, trimStr_append _ _ (noEdge_charWs_natDecimal code) (by decide)]
  rw [parseUsize_natDecimal code hcode]

theorem parse_response_render (code : Nat) (msg : Bytes) (hs : List HttpHeader) (rest : Bytes)
    (hcode : code < 2 ^ 64) (hmsg : wfText msg = true)
    (hhs : ∀ h ∈ hs, wfHeader h = true) :
    parse_response true (renderRespHead code msg hs ++ rest) =
      pbind
        (extract_body_data (findHeader hs hTransferEncoding) (findHeader hs hContentLength)
          rest)
        (fun br =>
          .ok
            { version := .http11, statusCode := code, statusMsg := msg, headers := hs,
              body := br.1, chunks := br.2.1, chunked := !br.2.1.isEmpty }) := by
  obtain ⟨hmsg_all, hmsg_edge⟩ := wfText_spec hmsg
  have h1 : read_until 32 (renderRespHead code msg hs ++ rest) =
      (strBytes "HTTP/1.1" ++ [32],
        natDecimal code ++ [32] ++ msg ++ [13, 10] ++ renderHeaders hs ++ [13, 10] ++ rest) := by
    have he : renderRespHead code msg hs ++ rest =
        strBytes "HTTP/1.1" ++
          32 ::
            (natDecimal code ++ [32] ++ msg ++ [13, 10] ++ renderHeaders hs ++ [13, 10] ++
              rest) := by
      simp [renderRespHead]
    rw [he, read_until_append 32 _ _ (by decide)]
  have h2 : parse_version (strBytes "HTTP/1.1" ++ [32]) = .ok .http11 := by decide
  have h3 : read_until 32
      (natDecimal code ++ [32] ++ msg ++ [13, 10] ++ renderHeaders hs ++ [13, 10] ++ rest) =
      (natDecimal code ++ [32],
        msg ++ [13, 10] ++ renderHeaders hs ++ [13, 10] ++ rest) := by
    have h32 : (32 : Nat) ∉ natDecimal code := by
      intro hm
      have := natDecimal_mem_digit hm
      omega
    have he : natDecimal code ++ [32] ++ msg ++ [13, 10] ++ renderHeaders hs ++ [13, 10] ++
        rest =
        natDecimal code ++ 32 :: (msg ++ [13, 10] ++ renderHeaders hs ++ [13, 10] ++ rest) := by
      simp
    rw [he, read_until_append 32 _ _ h32]
  have h4 := parse_status_code_canonical code hcode
  have h5 : read_until 10 (msg ++ [13, 10] ++ renderHeaders hs ++ [13, 10] ++ rest) =
      (msg ++ [13, 10], renderHeaders hs ++ [13, 10] ++ rest) := by
    have h10 : (10 : Nat) ∉ msg ++ [13] := by
      intro hm
      rcases List.mem_append.mp hm with hm | hm
      · exact (hmsg_all 10 hm).2 rfl
      · simp at hm
    have he : msg ++ [13, 10] ++ renderHeaders hs ++ [13, 10] ++ rest =
        (msg ++ [13]) ++ 10 :: (renderHeaders hs ++ [13, 10] ++ rest) := by
      simp
    rw [he, read_until_append 10 _ _ h10]
    simp
  have h6 : trimStr (msg ++ [13, 10]) = msg := trimStr_append _ _ hmsg_edge (by decide)
  have h7 := parse_headers_two_render hs rest hhs
  simp only [parse_response, h1, h2, pbind, h3, h4, h5, h6, h7, if_true]

theorem parse_method_token (m : HttpMethod) (hm : ¬m = .patch ∧ ¬m = .connect) :
    parse_method (methodBytes m ++ [32]) = .ok m := by
  cases m
  all_goals first
    | exact absurd rfl hm.1
    | exact absurd rfl hm.2
    | decide

theorem methodBytes_visible (m : HttpMethod) : ∀ b ∈ methodBytes m, Visible b := by
  cases m <;> decide

theorem parse_request_render (m : HttpMethod) (url : Bytes) (hs : List HttpHeader)
    (rest : Bytes) (hm : ¬m = .patch ∧ ¬m = .connect) (hurl : wfToken url = true)
    (hhs : ∀ h ∈ hs, wfHeader h = true) :
    parse_request true (renderReqHead m url hs ++ rest) =
      pbind
        (extract_body_data (findHeader hs hTransferEncoding) (findHeader hs hContentLength)
          rest)
        (fun br =>
          .ok
            { method := m, url := url, version := .http11, headers := hs, body := br.1,
              chunks := br.2.1, chunked := !br.2.1.isEmpty }) := by
  have hurl_all := wfToken_spec hurl
  have h1 : read_until 32 (renderReqHead m url hs ++ rest) =
      (methodBytes m ++ [32],
        url ++ [32] ++ strBytes "HTTP/1.1" ++ [13, 10] ++ renderHeaders hs ++ [13, 10] ++
          rest) := by
    have h32 : (32 : Nat) ∉ methodBytes m := by
      intro hmem
      have := methodBytes_visible m 32 hmem
      exact absurd this.1 (by omega)
    have he : renderReqHead m url hs ++ rest =
        methodBytes m ++
          32 ::
            (url ++ [32] ++ strBytes "HTTP/1.1" ++ [13, 10] ++ renderHeaders hs ++ [13, 10] ++
              rest) := by
      simp [renderReqHead]
    rw [he, read_until_append 32 _ _ h32]
  have h2 := parse_method_token m hm
  have h3 : read_until 32
      (url ++ [32] ++ strBytes "HTTP/1.1" ++ [13, 10] ++ renderHeaders hs ++ [13, 10] ++
        rest) =
      (url ++ [32],
        strBytes "HTTP/1.1" ++ [13, 10] ++ renderHeaders hs ++ [13, 10] ++ rest) := by
    have h32 : (32 : Nat) ∉ url := by
      intro hmem
      have := (hurl_all 32 hmem).2
      simp [isCharWs] at this
    have he : url ++ [32] ++ strBytes "HTTP/1.1" ++ [13, 10] ++ renderHeaders hs ++ [13, 10] ++
        rest =
        url ++ 32 :: (strBytes "HTTP/1.1" ++ [13, 10] ++ renderHeaders hs ++ [13, 10] ++ rest) := by
      simp
    rw [he, read_until_append 32 _ _ h32]
  have h4 : trimStr (url ++ [32]) = url :=
    trimStr_append _ _ (noEdge_of_all _ _ fun b hb => (hurl_all b hb).2) (by decide)
  have h5 : read_until 10
      (strBytes "HTTP/1.1" ++ [13, 10] ++ renderHeaders hs ++ [13, 10] ++ rest) =
      (strBytes "HTTP/1.1" ++ [13, 10], renderHeaders hs ++ [13, 10] ++ rest) := by
    have he : strBytes "HTTP/1.1" ++ [13, 10] ++ renderHeaders hs ++ [13, 10] ++ rest =
        (strBytes "HTTP/1.1" ++ [13]) ++ 10 :: (renderHeaders hs ++ [13, 10] ++ rest) := by
      simp
    rw [he, read_until_append 10 _ _ (by decide)]
    simp
  have h6 : parse_version (strBytes "HTTP/1.1" ++ [13, 10]) = .ok .http11 := by decide
  have h7 := parse_headers_two_render hs rest hhs
  simp only [parse_request, h1, h2, pbind, h3, h4, h5, h6, h7, if_true]

theorem into_bytes_response_eq (code : Nat) (msg : Bytes) (hs : List HttpHeader)
    (body : Bytes) (chunks : List (Nat × Nat)) (chunked : Bool) :
    HttpResponse.into_bytes
        { version := .http11, statusCode := code, statusMsg := msg, headers := hs, body,
          chunks, chunked } =
      renderRespHead code msg hs ++
        (if body.isEmpty then [] else if chunked then renderChunks body chunks else body) := by
  simp [HttpResponse.into_bytes, renderRespHead, versionBytes]

theorem into_bytes_request_eq (m : HttpMethod) (url : Bytes) (hs : List HttpHeader)
    (body : Bytes) (chunks : List (Nat × Nat)) (chunked : Bool) :
    HttpRequest.into_bytes
        { method := m, url, version := .http11, headers := hs, body, chunks, chunked } =
      renderReqHead m url hs ++
        (if body.isEmpty then [] else if chunked then renderChunks body chunks else body) := by
  simp [HttpRequest.into_bytes, renderReqHead, versionBytes]

theorem extract_body_data_none (rest : Bytes) :
    extract_body_data none none rest = .ok ([], [], rest) := by
  simp [extract_body_data]

theorem extract_body_data_content (hcl : HttpHeader) (n : Nat) (rest : Bytes)
    (hv : parseUsize hcl.value = some n) (hlen : n ≤ rest.length) :
    extract_body_data none (some hcl) rest = .ok (rest.take n, [], rest.drop n) := by
  simp only [extract_body_data, hv, read_exact, if_pos hlen]
  simp

theorem extract_body_data_chunked (hTE : HttpHeader) (cl : Option HttpHeader)
    (segs : List Bytes) (hid : hasSubstr hTE.value (strBytes "identity") = false)
    (hwf : wfSegs segs = true) (hne : segs ≠ []) :
    extract_body_data (some hTE) cl (chunkedWire segs) =
      .ok (concatB segs, offsetsFrom 0 segs ++ [(0, 0)], []) := by
  simp only [extract_body_data, hid, Bool.not_false, if_true]
  exact read_chunked_body_wire segs hwf hne

theorem offsetsFrom_sentinel_ne_nil (segs : List Bytes) :
    (offsetsFrom 0 segs ++ [(0, 0)]).isEmpty = false := by
  cases segs <;> simp [offsetsFrom]

theorem wfSegs_head_ne_nil {c : Bytes} {t : List Bytes} (hwf : wfSegs (c :: t) = true) :
    c ≠ [] := by
  have h := List.all_eq_true.mp hwf c (by simp)
  intro hc
  rw [hc] at h
  simp at h

/-! ### Claim theorems -/

/-- C1 (amended; the byte-level round trip fails for non-canonical input, see
`c1_counterexample`): for wire bytes in canonical form — single spaces in the
start line, each header line rendered `Name: value` with exactly one space
after the colon, CRLF line endings, and a body that is absent (no framing
headers), exactly Content-Length bytes, or a canonical chunked body — parsing
with the Message Parser yields exactly the rendered message value
(method/version/status, headers, body bytes, chunk structure) and serializing
that value with `into_bytes` reproduces the original input bytes, for
responses and for requests (requests only for the methods `parse_method`
accepts, see C3). -/
theorem c1_round_trip_canonical
    (code : Nat) (msg url : Bytes) (m : HttpMethod) (hs : List HttpHeader)
    (hcode : code < 2 ^ 64) (hmsg : wfText msg = true) (hurl : wfToken url = true)
    (hm : ¬m = .patch ∧ ¬m = .connect) (hhs : ∀ h ∈ hs, wfHeader h = true) :
    (findHeader hs hTransferEncoding = none → findHeader hs hContentLength = none →
      parse_response true (renderRespHead code msg hs) =
          .ok { version := .http11, statusCode := code, statusMsg := msg, headers := hs,
                body := [], chunks := [], chunked := false } ∧
        HttpResponse.into_bytes
            { version := .http11, statusCode := code, statusMsg := msg, headers := hs,
              body := [], chunks := [], chunked := false } =
          renderRespHead code msg hs) ∧
    (∀ body hcl, body.length < 2 ^ 64 →
      findHeader hs hTransferEncoding = none → findHeader hs hContentLength = some hcl →
      hcl.value = natDecimal body.length →
      parse_response true (renderRespHead code msg hs ++ body) =
          .ok { version := .http11, statusCode := code, statusMsg := msg, headers := hs,
                body := body, chunks := [], chunked := false } ∧
        HttpResponse.into_bytes
            { version := .http11, statusCode := code, statusMsg := msg, headers := hs,
              body := body, chunks := [], chunked := false } =
          renderRespHead code msg hs ++ body) ∧
    (∀ segs hTE, findHeader hs hTransferEncoding = some hTE →
      hasSubstr hTE.value (strBytes "identity") = false →
      wfSegs segs = true → ¬segs = [] →
      parse_response true (renderRespHead code msg hs ++ chunkedWire segs) =
          .ok { version := .http11, statusCode := code, statusMsg := msg, headers := hs,
                body := concatB segs, chunks := offsetsFrom 0 segs ++ [(0, 0)],
                chunked := true } ∧
        HttpResponse.into_bytes
            { version := .http11, statusCode := code, statusMsg := msg, headers := hs,
              body := concatB segs, chunks := offsetsFrom 0 segs ++ [(0, 0)],
              chunked := true } =
          renderRespHead code msg hs ++ chunkedWire segs) ∧
    (findHeader hs hTransferEncoding = none → findHeader hs hContentLength = none →
      parse_request true (renderReqHead m url hs) =
          .ok { method := m, url := url, version := .http11, headers := hs, body := [],
                chunks := [], chunked := false } ∧
        HttpRequest.into_bytes
            { method := m, url := url, version := .http11, headers := hs, body := [],
              chunks := [], chunked := false } =
          renderReqHead m url hs) ∧
    (∀ body hcl, body.length < 2 ^ 64 →
      findHeader hs hTransferEncoding = none → findHeader hs hContentLength = some hcl →
      hcl.value = natDecimal body.length →
      parse_request true (renderReqHead m url hs ++ body) =
          .ok { method := m, url := url, version := .http11, headers := hs, body := body,
                chunks := [], chunked := false } ∧
        HttpRequest.into_bytes
            { method := m, url := url, version := .http11, headers := hs, body := body,
              chunks := [], chunked := false } =
          renderReqHead m url hs ++ body) ∧
    (∀ segs hTE, findHeader hs hTransferEncoding = some hTE →
      hasSubstr hTE.value (strBytes "identity") = false →
      wfSegs segs = true → ¬segs = [] →
      parse_request true (renderReqHead m url hs ++ chunkedWire segs) =
          .ok { method := m, url := url, version := .http11, headers := hs,
                body := concatB segs, chunks := offsetsFrom 0 segs ++ [(0, 0)],
                chunked := true } ∧
        HttpRequest.into_bytes
            { method := m, url := url, version := .http11, headers := hs,
              body := concatB segs, chunks := offsetsFrom 0 segs ++ [(0, 0)],
              chunked := true } =
          renderReqHead m url hs ++ chunkedWire segs) := by
  refine ⟨?_, ?_, ?_, ?_, ?_, ?_⟩
  · -- response, no framing headers
    intro hTEn hCLn
    constructor
    · have h := parse_response_render code msg hs [] hcode hmsg hhs
      rw [List.append_nil] at h
      rw [h, hTEn, hCLn, extract_body_data_none]
      simp [pbind]
    · rw [into_bytes_response_eq]
      simp
  · -- response, Content-Length body
    intro body hcl hbl hTEn hCLs hval
    constructor
    · have h := parse_response_render code msg hs body hcode hmsg hhs
      have hv : parseUsize hcl.value = some body.length := by
        rw [hval]
        exact parseUsize_natDecimal _ hbl
      rw [h, hTEn, hCLs, extract_body_data_content hcl body.length body hv (le_refl _)]
      simp [pbind]
    · rw [into_bytes_response_eq]
      by_cases hb : body = []
      · subst hb; simp
      · have hbe : body.isEmpty = false := by simpa using hb
        simp [hbe]
  · -- response, chunked body
    intro segs hTE hTEs hid hwfsegs hne
    obtain ⟨c, t, rfl⟩ : ∃ c t, segs = c :: t := by
      cases segs with
      | nil => exact absurd rfl hne
      | cons c t => exact ⟨c, t, rfl⟩
    have hbne : (concatB (c :: t)).isEmpty = false := by
      have := concatB_ne_nil c t (wfSegs_head_ne_nil hwfsegs)
      simpa using this
    constructor
    · have h := parse_response_render code msg hs (chunkedWire (c :: t)) hcode hmsg hhs
      rw [h, hTEs, extract_body_data_chunked hTE _ (c :: t) hid hwfsegs hne]
      simp [pbind, offsetsFrom_sentinel_ne_nil]
    · rw [into_bytes_response_eq]
      simp only [hbne, Bool.false_eq_true, if_false, if_true, renderChunks_canonical]
  · -- request, no framing headers
    intro hTEn hCLn
    constructor
    · have h := parse_request_render m url hs [] hm hurl hhs
      rw [List.append_nil] at h
      rw [h, hTEn, hCLn, extract_body_data_none]
      simp [pbind]
    · rw [into_bytes_request_eq]
      simp
  · -- request, Content-Length body
    intro body hcl hbl hTEn hCLs hval
    constructor
    · have h := parse_request_render m url hs body hm hurl hhs
      have hv : parseUsize hcl.value = some body.length := by
        rw [hval]
        exact parseUsize_natDecimal _ hbl
      rw [h, hTEn, hCLs, extract_body_data_content hcl body.length body hv (le_refl _)]
      simp [pbind]
    · rw [into_bytes_request_eq]
      by_cases hb : body = []
      · subst hb; simp
      · have hbe : body.isEmpty = false := by simpa using hb
        simp [hbe]
  · -- request, chunked body
    intro segs hTE hTEs hid hwfsegs hne
    obtain ⟨c, t, rfl⟩ : ∃ c t, segs = c :: t := by
      cases segs with
      | nil => exact absurd rfl hne
      | cons c t => exact ⟨c, t, rfl⟩
    have hbne : (concatB (c :: t)).isEmpty = false := by
      have := concatB_ne_nil c t (wfSegs_head_ne_nil hwfsegs)
      simpa using this
    constructor
    · have h := parse_request_render m url hs (chunkedWire (c :: t)) hm hurl hhs
      rw [h, hTEs, extract_body_data_chunked hTE _ (c :: t) hid hwfsegs hne]
      simp [pbind, offsetsFrom_sentinel_ne_nil]
    · rw [into_bytes_request_eq]
      simp only [hbne, Bool.false_eq_true, if_false, if_true, renderChunks_canonical]

/-- C1 witness: round trip of the crate doc-test chunked response, via
`c1_round_trip_canonical` at concrete inputs. -/
theorem c1_round_trip_canonical_witness :
    parse_response true
        (renderRespHead 200 (strBytes "OK") demoRespHeaders ++ chunkedWire demoSegs) =
        .ok
          { version := .http11, statusCode := 200, statusMsg := strBytes "OK",
            headers := demoRespHeaders, body := concatB demoSegs,
            chunks := offsetsFrom 0 demoSegs ++ [(0, 0)], chunked := true } ∧
      HttpResponse.into_bytes
          { version := .http11, statusCode := 200, statusMsg := strBytes "OK",
            headers := demoRespHeaders, body := concatB demoSegs,
            chunks := offsetsFrom 0 demoSegs ++ [(0, 0)], chunked := true } =
        renderRespHead 200 (strBytes "OK") demoRespHeaders ++ chunkedWire demoSegs :=
  (c1_round_trip_canonical 200 (strBytes "OK") (strBytes "/") .get demoRespHeaders
        (by decide) (by decide) (by decide) (by decide) (by decide)).2.2.1
    demoSegs ⟨strBytes "Transfer-Encoding", strBytes "chunked"⟩ (by decide) (by decide)
    (by decide) (by decide)

/-- C1 counterexample: the wire bytes `GET / HTTP/1.1\r\nHost:x\r\n\r\n` are
valid (they parse successfully), yet `into_bytes` re-serializes them with a
space after the header colon, so `serialize(parse(bytes)) ≠ bytes`. -/
theorem c1_counterexample :
    (parse_request true (strBytes "GET / HTTP/1.1\r\nHost:x\r\n\r\n")).toOption.map
        HttpRequest.into_bytes =
      some (strBytes "GET / HTTP/1.1\r\nHost: x\r\n\r\n") ∧
    strBytes "GET / HTTP/1.1\r\nHost: x\r\n\r\n" ≠
      strBytes "GET / HTTP/1.1\r\nHost:x\r\n\r\n" := by
  decide

theorem put_header_mem_names (n v : Bytes) :
    ∀ (hs : List HttpHeader) (h2 : HttpHeader), h2 ∈ put_header n v hs →
      (∃ h ∈ hs, h2.name = h.name) ∨ h2.name = n := by
  intro hs
  induction hs with
  | nil =>
    intro h2 hm
    simp only [put_header, List.mem_singleton] at hm
    subst hm
    exact Or.inr rfl
  | cons h t ih =>
    intro h2 hm
    simp only [put_header] at hm
    by_cases hc : lowerBytes h.name == lowerBytes n
    · rw [if_pos hc] at hm
      rcases List.mem_cons.mp hm with hm | hm
      · subst hm
        exact Or.inl ⟨h, by simp, rfl⟩
      · exact Or.inl ⟨h2, by simp [hm], rfl⟩
    · rw [if_neg hc] at hm
      rcases List.mem_cons.mp hm with hm | hm
      · subst hm
        exact Or.inl ⟨h2, by simp, rfl⟩
      · rcases ih h2 hm with ⟨h3, hm3, he⟩ | he
        · exact Or.inl ⟨h3, by simp [hm3], he⟩
        · exact Or.inr he

theorem put_header_pairwise (n v : Bytes) :
    ∀ hs : List HttpHeader, hs.Pairwise HdrDistinct →
      (put_header n v hs).Pairwise HdrDistinct := by
  intro hs
  induction hs with
  | nil =>
    intro _
    simp [put_header, HdrDistinct]
  | cons h t ih =>
    intro hp
    rw [List.pairwise_cons] at hp
    obtain ⟨hhd, htp⟩ := hp
    simp only [put_header]
    by_cases hc : lowerBytes h.name == lowerBytes n
    · rw [if_pos hc]
      rw [List.pairwise_cons]
      exact ⟨fun h2 hm => hhd h2 hm, htp⟩
    · rw [if_neg hc]
      rw [List.pairwise_cons]
      refine ⟨?_, ih htp⟩
      intro h2 hm
      rcases put_header_mem_names n v t h2 hm with ⟨h3, hm3, he⟩ | he
      · have := hhd h3 hm3
        simpa [HdrDistinct, he] using this
      · simp only [HdrDistinct, he]
        intro hle
        rw [hle] at hc
        simp at hc

theorem put_header_filter (n v : Bytes) :
    ∀ hs : List HttpHeader, hs.Pairwise HdrDistinct →
      ((put_header n v hs).filter fun h => lowerBytes h.name == lowerBytes n).map
          HttpHeader.value = [v] := by
  intro hs
  induction hs with
  | nil =>
    simp [put_header, List.filter]
  | cons h t ih =>
    intro hp
    rw [List.pairwise_cons] at hp
    obtain ⟨hhd, htp⟩ := hp
    simp only [put_header]
    by_cases hc : lowerBytes h.name == lowerBytes n
    · rw [if_pos hc]
      have hrest : t.filter (fun h2 => lowerBytes h2.name == lowerBytes n) = [] := by
        rw [List.filter_eq_nil_iff]
        intro h2 hm
        have hd := hhd h2 hm
        simp only [HdrDistinct] at hd
        have hcn : lowerBytes h.name = lowerBytes n := by simpa using hc
        rw [hcn] at hd
        simpa using fun he => hd he.symm
      rw [List.filter_cons]
      simp only [hc, if_true, hrest]
      simp
    · rw [if_neg hc]
      rw [List.filter_cons]
      simp only [hc, Bool.false_eq_true, if_false]
      exact ih htp

/-- C2 (amended; the parser half fails, see `c2_counterexample`):
`put_header` keeps at most one entry per case-insensitive name — it preserves
the pairwise-distinct-names invariant, and putting the same name twice (with
differing case) leaves exactly one matching entry, holding the latest
value — but messages produced by the parser do **not** satisfy the claimed
invariant: `parse_headers_two` appends repeated header names verbatim. -/
theorem c2_put_header_overwrites (hs : List HttpHeader) (n1 n2 v1 v2 : Bytes)
    (hdup : lowerBytes n1 = lowerBytes n2) (huniq : hs.Pairwise HdrDistinct) :
    (put_header n1 v1 hs).Pairwise HdrDistinct ∧
    (put_header n2 v2 (put_header n1 v1 hs)).Pairwise HdrDistinct ∧
    ((put_header n2 v2 (put_header n1 v1 hs)).filter fun h =>
        lowerBytes h.name == lowerBytes n1).map HttpHeader.value = [v2] := by
  have h1 := put_header_pairwise n1 v1 hs huniq
  refine ⟨h1, put_header_pairwise n2 v2 _ h1, ?_⟩
  have h2 := put_header_filter n2 v2 (put_header n1 v1 hs) h1
  rw [hdup]
  exact h2

/-- C2 witness: two same-name `put_header` calls with differing case on an
empty header list, via `c2_put_header_overwrites` at concrete inputs. -/
theorem c2_put_header_overwrites_witness :
    (put_header (strBytes "Set-Cookie") (strBytes "a") []).Pairwise HdrDistinct ∧
    (put_header (strBytes "set-cookie") (strBytes "b")
        (put_header (strBytes "Set-Cookie") (strBytes "a") [])).Pairwise HdrDistinct ∧
    ((put_header (strBytes "set-cookie") (strBytes "b")
        (put_header (strBytes "Set-Cookie") (strBytes "a") [])).filter fun h =>
          lowerBytes h.name == lowerBytes (strBytes "Set-Cookie")).map HttpHeader.value =
      [strBytes "b"] :=
  c2_put_header_overwrites [] (strBytes "Set-Cookie") (strBytes "set-cookie") (strBytes "a")
    (strBytes "b") (by decide) List.Pairwise.nil

/-- C2 counterexample: a parsed message with a repeated header name keeps both
entries (first-write lookup, no last-write collapse): the header list of
`GET / HTTP/1.1` with `A: 1` and `A: 2` has two entries named `A`. -/
theorem c2_counterexample :
    (parse_request true (strBytes "GET / HTTP/1.1\r\nA: 1\r\nA: 2\r\n\r\n")).toOption.map
        (fun r => r.headers) =
      some [⟨strBytes "A", strBytes "1"⟩, ⟨strBytes "A", strBytes "2"⟩] ∧
    ¬((([⟨strBytes "A", strBytes "1"⟩, ⟨strBytes "A", strBytes "2"⟩] :
        List HttpHeader).filter fun h => lowerBytes h.name == lowerBytes (strBytes "A")).length
        ≤ 1) := by
  decide

/-- C3: the method table of `parse_method` has no arm for `PATCH` or
`CONNECT` — both tokens are rejected with a parse error even though
`HttpMethod` has the variants and `Display` renders them — while the other
seven tokens of the claimed set are accepted. -/
theorem c3_parse_method_rejects_patch_connect :
    parse_method (strBytes "PATCH") = .err ∧
    parse_method (strBytes "CONNECT") = .err ∧
    methodBytes .patch = strBytes "PATCH" ∧
    methodBytes .connect = strBytes "CONNECT" ∧
    parse_method (strBytes "GET") = .ok .get ∧
    parse_method (strBytes "POST") = .ok .post ∧
    parse_method (strBytes "PUT") = .ok .put ∧
    parse_method (strBytes "HEAD") = .ok .head ∧
    parse_method (strBytes "OPTIONS") = .ok .options ∧
    parse_method (strBytes "DELETE") = .ok .delete ∧
    parse_method (strBytes "TRACE") = .ok .trace := by
  decide

/-- C4 (amended; see `c4_counterexample`): the version validation accepts
exactly one token — every successful `parse_version` returns `Http11` and its
input trims to the literal `HTTP/1.1`; `HTTP/1.0`, `HTTP/2` and `HTTP/3` are
all rejected. -/
theorem c4_parse_version_only_http11 (l : Bytes) (v : HttpVersion)
    (h : parse_version l = .ok v) :
    v = .http11 ∧ trimAscii l = strBytes "HTTP/1.1" := by
  rw [parse_version] at h
  by_cases hc : trimAscii l = strBytes "HTTP/1.1"
  · rw [if_pos (by simpa using hc)] at h
    refine ⟨?_, hc⟩
    injection h with h2
    exact h2.symm
  · rw [if_neg (by simpa using hc)] at h
    cases h

/-- C4 witness: `parse_version` on the exact token `HTTP/1.1`, via
`c4_parse_version_only_http11`. -/
theorem c4_parse_version_only_http11_witness :
    HttpVersion.http11 = HttpVersion.http11 ∧
    trimAscii (strBytes "HTTP/1.1") = strBytes "HTTP/1.1" :=
  c4_parse_version_only_http11 (strBytes "HTTP/1.1") .http11 (by decide)

/-- C4 counterexample: the claim says the tokens `HTTP/1.0`, `HTTP/2` and
`HTTP/3` map to their variants, but `parse_version` rejects all three (the
`HTTP/2`/`HTTP/3` arms are commented out in parser.rs and `HTTP/1.0` has no
arm). -/
theorem c4_counterexample :
    parse_version (strBytes "HTTP/1.0") = .err ∧
    parse_version (strBytes "HTTP/2") = .err ∧
    parse_version (strBytes "HTTP/3") = .err := by
  decide

theorem renderChunks_eq_foldr (body : Bytes) (cs : List (Nat × Nat)) (tail : Bytes) :
    renderChunks body cs ++ tail =
      cs.foldr
        (fun p acc =>
          natHexUpper (p.2 - p.1) ++ [13, 10] ++ sliceBytes body p.1 p.2 ++ [13, 10] ++ acc)
        tail := by
  induction cs with
  | nil => simp [renderChunks]
  | cons p t ih =>
    obtain ⟨s, e⟩ := p
    simp only [renderChunks, List.foldr_cons]
    rw [← ih]
    simp

/-- C5: when the chunked flag is set (and the chunk index ends with the
`(0, 0)` sentinel over a non-empty body of valid ranges), `into_bytes` emits,
for each non-sentinel `(start, end)` pair, the upper-case hex length of
`end - start`, CRLF, the raw body slice, CRLF, and the resulting chunked body
wire form is that sequence terminated by `0 CRLF` plus a trailing blank CRLF —
for responses and for requests. -/
theorem c5_chunked_serialization :
    (∀ (r : HttpResponse) (cs : List (Nat × Nat)),
      r.chunked = true → r.chunks = cs ++ [(0, 0)] →
      (∀ p ∈ cs, p.1 ≤ p.2 ∧ p.2 ≤ r.body.length) → r.body ≠ [] →
      r.into_bytes =
        versionBytes r.version ++ [32] ++ natDecimal r.statusCode ++ [32] ++ r.statusMsg ++
          [13, 10] ++ renderHeaders r.headers ++ [13, 10] ++
          cs.foldr
            (fun p acc =>
              natHexUpper (p.2 - p.1) ++ [13, 10] ++ sliceBytes r.body p.1 p.2 ++ [13, 10] ++
                acc)
            ([48, 13, 10] ++ [13, 10])) ∧
    (∀ (r : HttpRequest) (cs : List (Nat × Nat)),
      r.chunked = true → r.chunks = cs ++ [(0, 0)] →
      (∀ p ∈ cs, p.1 ≤ p.2 ∧ p.2 ≤ r.body.length) → r.body ≠ [] →
      r.into_bytes =
        methodBytes r.method ++ [32] ++ r.url ++ [32] ++ versionBytes r.version ++ [13, 10] ++
          renderHeaders r.headers ++ [13, 10] ++
          cs.foldr
            (fun p acc =>
              natHexUpper (p.2 - p.1) ++ [13, 10] ++ sliceBytes r.body p.1 p.2 ++ [13, 10] ++
                acc)
            ([48, 13, 10] ++ [13, 10])) := by
  constructor
  · intro r cs hch hcs _ hbody
    have hbe : r.body.isEmpty = false := by simpa using hbody
    rw [HttpResponse.into_bytes, hbe, hch, hcs]
    simp only [Bool.false_eq_true, if_false, if_true]
    rw [renderChunks_append, renderChunks_sentinel]
    rw [renderChunks_eq_foldr]
    simp
  · intro r cs hch hcs _ hbody
    have hbe : r.body.isEmpty = false := by simpa using hbody
    rw [HttpRequest.into_bytes, hbe, hch, hcs]
    simp only [Bool.false_eq_true, if_false, if_true]
    rw [renderChunks_append, renderChunks_sentinel]
    rw [renderChunks_eq_foldr]
    simp

/-- C5 witness: the chunk emission of the crate doc-test chunked response,
via `c5_chunked_serialization` at a concrete response. -/
theorem c5_chunked_serialization_witness :
    HttpResponse.into_bytes
        { version := .http11, statusCode := 200, statusMsg := strBytes "OK",
          headers := demoRespHeaders, body := strBytes "MozillaDeveloper Network",
          chunks := [(0, 7), (7, 24), (0, 0)], chunked := true } =
      versionBytes .http11 ++ [32] ++ natDecimal 200 ++ [32] ++ strBytes "OK" ++ [13, 10] ++
        renderHeaders demoRespHeaders ++ [13, 10] ++
        ([(0, 7), (7, 24)] : List (Nat × Nat)).foldr
          (fun p acc =>
            natHexUpper (p.2 - p.1) ++ [13, 10] ++
              sliceBytes (strBytes "MozillaDeveloper Network") p.1 p.2 ++ [13, 10] ++ acc)
          ([48, 13, 10] ++ [13, 10]) :=
  c5_chunked_serialization.1
    { version := .http11, statusCode := 200, statusMsg := strBytes "OK",
      headers := demoRespHeaders, body := strBytes "MozillaDeveloper Network",
      chunks := [(0, 7), (7, 24), (0, 0)], chunked := true }
    [(0, 7), (7, 24)] (by decide) (by decide) (by decide) (by decide)

/-- C6: parsing the doc-test chunked response reassembles the body
`MozillaDeveloper Network`, sets the chunked flag, and records the chunk
index `(0, 7), (7, 24)` plus the `(0, 0)` sentinel. -/
theorem c6_chunked_reconstruction :
    (parse_response true
          (strBytes
            "HTTP/1.1 200 OK\r\nContent-Type: text/plain\r\nTransfer-Encoding: chunked\r\n\r\n7\r\nMozilla\r\n11\r\nDeveloper Network\r\n0\r\n\r\n")).toOption.map
        (fun r => (r.body, r.chunked, r.chunks)) =
      some (strBytes "MozillaDeveloper Network", true, [(0, 7), (7, 24), (0, 0)]) := by
  decide

/-- C7: Content-Length framing is exact.  First, for any stream remainder
carrying at least `n` bytes under a Content-Length header whose value parses
to `n` (and no Transfer-Encoding override), the body decoder reads exactly the
first `n` bytes.  Second, at the full-parse level, a response declaring
`Content-Length: 45` over a 45-byte body parses to a body of length exactly
45 regardless of any extra bytes following the body in the stream. -/
theorem c7_content_length_exact (hcl : HttpHeader) (n : Nat) (rest : Bytes)
    (hv : parseUsize hcl.value = some n) (hlen : n ≤ rest.length) :
    (extract_body_data none (some hcl) rest = .ok (rest.take n, [], rest.drop n) ∧
      (rest.take n).length = n) ∧
    (∀ body extra : Bytes, body.length = 45 →
      (parse_response true
            (strBytes "HTTP/1.1 200 OK\r\nContent-Length: 45\r\n\r\n" ++ body ++
              extra)).toOption.map
          (fun r => r.body.length) =
        some 45) := by
  constructor
  · refine ⟨extract_body_data_content hcl n rest hv hlen, ?_⟩
    rw [List.length_take]
    omega
  · intro body extra hb45
    have hhead : strBytes "HTTP/1.1 200 OK\r\nContent-Length: 45\r\n\r\n" =
        renderRespHead 200 (strBytes "OK")
          [⟨strBytes "Content-Length", strBytes "45"⟩] := by
      decide
    rw [hhead, List.append_assoc]
    have h := parse_response_render 200 (strBytes "OK")
      [⟨strBytes "Content-Length", strBytes "45"⟩] (body ++ extra) (by decide) (by decide)
      (by decide)
    rw [h]
    have hTE : findHeader [⟨strBytes "Content-Length", strBytes "45"⟩] hTransferEncoding =
        none := by decide
    have hCL : findHeader [⟨strBytes "Content-Length", strBytes "45"⟩] hContentLength =
        some ⟨strBytes "Content-Length", strBytes "45"⟩ := by decide
    have hv45 : parseUsize (HttpHeader.mk (strBytes "Content-Length") (strBytes "45")).value =
        some 45 := by decide
    have hlen45 : 45 ≤ (body ++ extra).length := by
      rw [List.length_append]
      omega
    rw [hTE, hCL, extract_body_data_content _ 45 _ hv45 hlen45]
    simp only [pbind, PResult.toOption]
    simp [List.length_take, List.length_append]
    omega

/-- C7 witness: the body decoder at `Content-Length: 5` over the seven-byte
remainder `helloXY`, via `c7_content_length_exact` at concrete inputs. -/
theorem c7_content_length_exact_witness :
    extract_body_data none (some ⟨strBytes "Content-Length", strBytes "5"⟩)
        (strBytes "helloXY") =
      .ok ((strBytes "helloXY").take 5, [], (strBytes "helloXY").drop 5) ∧
    ((strBytes "helloXY").take 5).length = 5 :=
  (c7_content_length_exact ⟨strBytes "Content-Length", strBytes "5"⟩ 5 (strBytes "helloXY")
      (by decide) (by decide)).1

/-- C8: building an `HttpUrl` with scheme `http`, host `127.0.0.1`, port
`8080`, path `video.mp4`, query `start=56`, fragment `time` renders as
`http://127.0.0.1:8080/video.mp4?start=56#time`, and parsing that string back
yields fragment `time`, query `start = 56` and file `video.mp4`. -/
theorem c8_url_round_trip :
    HttpUrl.render
        (HttpUrlBuilder.build
          (((((HttpUrlBuilder.new.withScheme (strBytes "http")).withHost
                    (strBytes "127.0.0.1")).withPort
                  8080).withPath
                (strBytes "video.mp4")).param (strBytes "start") (strBytes "56") |>.withFragment
            (strBytes "time"))) =
      strBytes "http://127.0.0.1:8080/video.mp4?start=56#time" ∧
    (HttpUrl.parse (strBytes "http://127.0.0.1:8080/video.mp4?start=56#time")).map
        (fun u => (u.fragment, u.queryGet (strBytes "start"), u.file)) =
      some (some (strBytes "time"), some (strBytes "56"), some (strBytes "video.mp4")) := by
  decide

/-- C9: the chunk-index validity invariant is broken by `add_data`.  Starting
from the parsed doc-test chunked response (chunk index `(0,7), (7,24), (0,0)`
over a 24-byte body), one `add_data` of a single byte appends the pair
`(25, 1)` — the body length *after* extension paired with the data length —
which violates `start ≤ end` (and no longer keeps the `(0,0)` sentinel
trailing), instead of the `(24, 25)` range the invariant requires. -/
theorem c9_add_data_breaks_chunk_index :
    (parse_response true
          (strBytes
            "HTTP/1.1 200 OK\r\nContent-Type: text/plain\r\nTransfer-Encoding: chunked\r\n\r\n7\r\nMozilla\r\n11\r\nDeveloper Network\r\n0\r\n\r\n")).toOption.map
        (fun r => ((r.add_data (strBytes "d")).chunks, (r.add_data (strBytes "d")).body.length)) =
      some ([(0, 7), (7, 24), (0, 0), (25, 1)], 25) ∧
    ¬((25 : Nat) ≤ 1) := by
  decide

/-- C10 (amended; see `c10_counterexample`): the header-loop slicings stay in
bounds — and `parse_headers_two` returns `Ok` without panicking — for every
header section made of canonical `Name: value` CRLF-terminated lines; but the
claim's universal no-panic statement is false: a header line whose value
segment ends with fewer than two bytes (for example a line without a colon at
end of input) makes `value[0..value_len - 2]` go out of bounds. -/
theorem c10_header_loop_in_bounds (hs : List HttpHeader) (rest : Bytes)
    (hhs : ∀ h ∈ hs, wfHeader h = true) :
    parse_headers_two (renderHeaders hs ++ [13, 10] ++ rest) = .ok (hs, rest) :=
  parse_headers_two_render hs rest hhs

/-- C10 witness: the header loop over the demo request headers, via
`c10_header_loop_in_bounds` at concrete inputs. -/
theorem c10_header_loop_in_bounds_witness :
    parse_headers_two (renderHeaders demoReqHeaders ++ [13, 10] ++ []) =
      .ok (demoReqHeaders, []) :=
  c10_header_loop_in_bounds demoReqHeaders [] (by decide)

/-- C10 counterexample: on the input `GET / HTTP/1.1\r\nA\n` the header loop
reads a name of one byte (`A` with no colon, to end of input), skips
whitespace, then reads zero value bytes, and the slice
`value[0..value_len - 2]` underflows out of bounds: the request parser
panics instead of returning `Ok` or `Err`. -/
theorem c10_counterexample :
    parse_request true (strBytes "GET / HTTP/1.1\r\nA\n") = .panic := by
  decide

end HttpParse
